import Mathlib

/-!
Verification of the godotenv env-file encoder/decoder and its
load/overload orchestration, shallowly embedded in Lean.

Go strings are modelled as lists of characters (`Str := List Char`).
Byte-wise lexicographic comparison of valid UTF-8 strings coincides with
code-point lexicographic comparison, so the linear order on `List Char`
models Go's `sort.Strings` order.

The encoder (`Marshal`, `doubleQuoteEscape`) and the load/overload
orchestration (`loadFile`, `LoadFrom`, `OverloadFrom`, `ReadFrom`) are
translated from `godotenv.go`.  The decoder (`parseBytes`, reached through
`UnmarshalBytes`) is not part of the provided source; it is modelled from
the specification's decoder contract, as documented on each definition.
-/

abbrev Str := List Char

/-- The double-quote character. -/
def dquote : Char := Char.ofNat 34

/-- The single-quote character. -/
def squote : Char := Char.ofNat 39

/-- The backtick character. -/
def btick : Char := Char.ofNat 96

/-- The opening curly-brace character. -/
def obrace : Char := Char.ofNat 123

/-- The closing curly-brace character. -/
def cbrace : Char := Char.ofNat 125

/-! ## Encoder: escaping (from `doubleQuoteEscape` in godotenv.go) -/
/-- The characters needing escapes in double-quoted values; source constant
`doubleQuoteSpecialChars` (backslash, newline, carriage return, double
quote, bang, dollar, backtick). -/
def doubleQuoteSpecialChars : Str := ['\\', '\n', '\r', dquote, '!', '$', btick]

/-- The two-character replacement the source chooses for the special
character `c`: newline and carriage return map to backslash-`n` /
backslash-`r`, every other special character to backslash followed by the
character itself. -/
def escapeRepl (c : Char) : Str :=
  if c = '\n' then ['\\', 'n']
  else if c = '\r' then ['\\', 'r']
  else ['\\', c]

/-- Go `strings.Replace(line, string(c), repl, -1)` for a one-character
pattern: every occurrence of `c` is replaced by `repl`. -/
def replaceChar (c : Char) (repl : Str) : Str → Str
  | [] => []
  | x :: rest => (if x = c then repl else [x]) ++ replaceChar c repl rest

/-- `doubleQuoteEscape` from the source: for each special character in turn,
globally replace it by its escape in the (already partially escaped) string. -/
def doubleQuoteEscape (line : Str) : Str :=
  doubleQuoteSpecialChars.foldl (fun acc c => replaceChar c (escapeRepl c) acc) line

/-- The escape of a single character as the specification describes it:
special characters become their two-character escape, others are kept. -/
def escChar (c : Char) : Str :=
  if c ∈ doubleQuoteSpecialChars then escapeRepl c else [c]

/-- A single left-to-right pass over the original string that escapes each
original special character exactly once (the specification's description of
correct, non-double-escaping behaviour). -/
def singlePassEscape : Str → Str
  | [] => []
  | c :: rest => escChar c ++ singlePassEscape rest

/-! ## Encoder: the `strconv.Atoi` fast path and integer formatting -/
/-- Numeric value of a digit string (most significant digit first). -/
def digitsVal (ds : Str) : Nat := ds.foldl (fun a c => a * 10 + (c.toNat - 48)) 0

/-- Model of Go `strconv.Atoi` (= `ParseInt(s, 10, 0)` on a 64-bit
platform): an optional single sign followed by one or more decimal digits,
with the value inside the signed 64-bit range; leading zeros and a leading
plus are accepted.  `none` corresponds exactly to Go returning a non-nil
error (syntax or range). -/
def atoiCore (neg : Bool) (ds : Str) : Option Int :=
  if ds ≠ [] ∧ ds.all Char.isDigit then
    if neg then
      if digitsVal ds ≤ 2 ^ 63 then some (-(digitsVal ds : Int)) else none
    else
      if digitsVal ds ≤ 2 ^ 63 - 1 then some (digitsVal ds : Int) else none
  else none

/-- The sign handling of `ParseInt`: a single leading minus or plus. -/
def atoi? (s : Str) : Option Int :=
  match s with
  | [] => none
  | c :: r =>
    if c = '-' then atoiCore true r
    else if c = '+' then atoiCore false r
    else atoiCore false (c :: r)

/-- Decimal digits of `n`, most significant first, computed with fuel;
fuel `n + 1` always suffices because the argument shrinks at every step. -/
def natDecAux : Nat → Nat → Str
  | 0, _ => []
  | _ + 1, 0 => []
  | fuel + 1, n + 1 => natDecAux fuel ((n + 1) / 10) ++ [Char.ofNat (48 + (n + 1) % 10)]

/-- Decimal rendering of a natural number. -/
def natDecimal (n : Nat) : Str :=
  if n = 0 then ['0'] else natDecAux (n + 1) n

/-- Decimal rendering of an integer, as Go's integer formatting verb
produces it inside `Marshal`. -/
def intDecimal (d : Int) : Str :=
  if d < 0 then '-' :: natDecimal d.natAbs else natDecimal d.toNat

/-! ## Encoder: `Marshal` -/
/-- One `KEY=...` line of `Marshal`: when `strconv.Atoi` succeeds on the
value the parsed integer is emitted unquoted, otherwise the value is
escaped and double-quoted. -/
def marshalLine (k v : Str) : Str :=
  match atoi? v with
  | some d => k ++ '=' :: intDecimal d
  | none => k ++ '=' :: dquote :: (doubleQuoteEscape v ++ [dquote])

/-- Go `strings.Join(lines, "\n")`. -/
def joinNL : List Str → Str
  | [] => []
  | [l] => l
  | l :: l' :: ls => l ++ '\n' :: joinNL (l' :: ls)

/-- `Marshal` from the source: one line per entry, lines sorted by Go
`sort.Strings` (modelled by insertion sort — the sorted permutation is
unique for this total antisymmetric order), joined by single newlines with
no trailing newline.  The entry list stands for the Go map; map iteration
order is arbitrary, which the permutation-invariance theorem accounts
for. -/
def Marshal (m : List (Str × Str)) : Str :=
  joinNL (List.insertionSort (· ≤ ·) (m.map fun p => marshalLine p.1 p.2))

/-! ## Decoder

The source's `parseBytes` (reached through `UnmarshalBytes`) is not among
the provided files; the decoder below is modelled from the specification's
per-line state machine (skip blank/comment lines, strip an optional
`export ` token, key up to the first `=`, value mode chosen by the first
non-whitespace character after `=`, escape decoding and variable expansion
for double-quoted values, expansion only for unquoted values, literal
single-quoted values, insert/overwrite into the accumulated mapping). -/
/-- Line-internal whitespace (space or tab). -/
def isWs (c : Char) : Bool := c == ' ' || c == '\t'

/-- Identifier-like character (letters, digits, underscore), used for keys
and for `NAME` in `$NAME` / `${NAME}` variable references. -/
def isIdentChar (c : Char) : Bool := c.isAlpha || c.isDigit || c == '_'

/-- Trim whitespace from both ends. -/
def trimWs (l : Str) : Str :=
  ((l.dropWhile isWs).reverse.dropWhile isWs).reverse

/-- Decode-time syntax errors from the specification's error taxonomy. -/
inductive ParseErr
  | missingSeparator
  | unterminatedQuote
  | emptyKey
deriving DecidableEq, Repr

/-- Modelled from the spec: a `$NAME` or `${NAME}` variable reference.
Given the input after the `$`, returns the substituted text and the rest of
the input; an unrecognized reference shape is kept literally. -/
def readRef (resolve : Str → Str) (rest : Str) : Str × Str :=
  match rest with
  | c :: r =>
    if c = obrace then
      let name := r.takeWhile isIdentChar
      match r.dropWhile isIdentChar with
      | c' :: r' =>
        if c' = cbrace then (resolve name, r')
        else (['$', obrace], r)
      | [] => (['$', obrace], r)
    else if isIdentChar c then
      (resolve ((c :: r).takeWhile isIdentChar), (c :: r).dropWhile isIdentChar)
    else (['$'], c :: r)
  | [] => (['$'], [])

/-- Modelled from the spec: variable expansion for values that undergo it
(double-quoted values expand inline, see `parseDQF`; unquoted values use
this function).  Undefined references resolve through `resolve`, which
already yields the empty string for unknown names.  Recursion is by fuel;
fuel at least the length of the input is always enough. -/
def expandVarsF (resolve : Str → Str) : Nat → Str → Str
  | 0, l => l
  | _ + 1, [] => []
  | fuel + 1, c :: rest =>
    if c = '$' then
      let step := readRef resolve rest
      step.1 ++ expandVarsF resolve fuel step.2
    else c :: expandVarsF resolve fuel rest

/-- Variable expansion with sufficient fuel. -/
def expandVars (resolve : Str → Str) (l : Str) : Str := expandVarsF resolve l.length l

/-- The characters that may follow a backslash inside a double-quoted
value, per the spec's escape list. -/
def dqEscapable : Str := [dquote, '\\', 'n', 'r', '!', '$', btick]

/-- The character an escape sequence decodes to. -/
def escDecode (c : Char) : Char :=
  if c = 'n' then '\n' else if c = 'r' then '\r' else c

/-- Modelled from the spec: consume a double-quoted value (the opening
quote already consumed) up to its unescaped closing quote, decoding the
escape sequences and expanding unescaped `$NAME` / `${NAME}` references in
the same left-to-right pass — per the encoder contract, an escaped dollar
decodes to a literal dollar that is not expanded.  Real newlines are
consumed literally (multi-line continuation).  Exhausting the input first
is the unterminated-quote error.  Fuel at least the length of the input is
always enough. -/
def parseDQF (resolve : Str → Str) : Nat → Str → Except ParseErr (Str × Str)
  | 0, _ => .error .unterminatedQuote
  | _ + 1, [] => .error .unterminatedQuote
  | fuel + 1, c :: rest =>
    if c = dquote then .ok ([], rest)
    else if c = '\\' then
      match rest with
      | [] => .error .unterminatedQuote
      | e :: r =>
        if e ∈ dqEscapable then
          (parseDQF resolve fuel r).map (fun p => (escDecode e :: p.1, p.2))
        else
          (parseDQF resolve fuel r).map (fun p => ('\\' :: e :: p.1, p.2))
    else if c = '$' then
      let step := readRef resolve rest
      (parseDQF resolve fuel step.2).map (fun p => (step.1 ++ p.1, p.2))
    else
      (parseDQF resolve fuel rest).map (fun p => (c :: p.1, p.2))

/-- Modelled from the spec: cut an unquoted value at a trailing comment,
which a whitespace character followed by `#` introduces; a `#` not preceded
by whitespace is part of the value. -/
def cutComment : Str → Str
  | [] => []
  | [c] => [c]
  | c :: c' :: rest =>
    if isWs c && c' == '#' then [] else c :: cutComment (c' :: rest)

/-- Modelled from the spec: strip an optional leading `export ` token
(`export` followed by whitespace); the following whitespace is consumed. -/
def stripExport (l : Str) : Str :=
  if l.take 6 = ['e', 'x', 'p', 'o', 'r', 't'] && (l.drop 6).head?.any isWs then
    (l.drop 6).dropWhile isWs
  else l

/-- Advance past the current physical line: drop up to and including the
next newline (or to the end of input). -/
def consumeEol (l : Str) : Str :=
  match l.dropWhile (fun c => !(c == '\n')) with
  | _ :: r => r
  | [] => []

/-- Association-list lookup (first binding wins), the mapping/environment
lookup of the model. -/
def lookupA (l : List (Str × Str)) (k : Str) : Option Str :=
  match l with
  | [] => none
  | p :: rest => if p.1 = k then some p.2 else lookupA rest k

/-- Insert-or-overwrite, the map store operation of the model. -/
def upsert (l : List (Str × Str)) (k v : Str) : List (Str × Str) :=
  match l with
  | [] => [(k, v)]
  | p :: rest => if p.1 = k then (k, v) :: rest else p :: upsert rest k v

/-- Modelled from the spec: parse one logical line.  Returns the optional
(key, value) entry and the input remaining after the line (terminating
newline included) is consumed. -/
def parseLine (resolve : Str → Str) (input : Str) :
    Except ParseErr (Option (Str × Str) × Str) :=
  match input.dropWhile isWs with
  | [] => .ok (none, [])
  | c :: rest =>
    if c = '\n' then .ok (none, rest)
    else if c = '#' then .ok (none, consumeEol rest)
    else
      let l := stripExport (c :: rest)
      let rawKey := l.takeWhile (fun x => !(x == '=' || x == '\n'))
      match l.dropWhile (fun x => !(x == '=' || x == '\n')) with
      | sep :: afterEq =>
        if ¬ sep = '=' then .error .missingSeparator
        else
        let key := trimWs rawKey
        if key = [] then .error .emptyKey
        else
          match afterEq.dropWhile isWs with
          | q :: r =>
            if q = dquote then
              match parseDQF resolve r.length r with
              | .error e => .error e
              | .ok (v, after) => .ok (some (key, v), consumeEol after)
            else if q = squote then
              match r.dropWhile (fun x => !(x == squote)) with
              | _ :: after => .ok (some (key, r.takeWhile (fun x => !(x == squote))),
                  consumeEol after)
              | [] => .error .unterminatedQuote
            else
              let rawVal := afterEq.takeWhile (fun x => !(x == '\n'))
              .ok (some (key, expandVars resolve (trimWs (cutComment rawVal))),
                consumeEol afterEq)
          | [] =>
            .ok (some (key, expandVars resolve (trimWs (cutComment
              (afterEq.takeWhile (fun x => !(x == '\n')))))), consumeEol afterEq)
      | _ => .error .missingSeparator

/-- Modelled from the spec: the decoder loop: parse logical lines in order,
storing each entry by insert/overwrite; variable references resolve against
the mapping accumulated so far, then the surrounding process environment
`outer`, and otherwise to the empty string.  Fuel at least the length of
the input is always enough. -/
def parseLoopF (outer : Str → Option Str) :
    Nat → Str → List (Str × Str) → Except ParseErr (List (Str × Str))
  | 0, _, acc => .ok acc
  | fuel + 1, input, acc =>
    match input with
    | [] => .ok acc
    | c :: rest =>
      match parseLine (fun name => ((lookupA acc name).or (outer name)).getD [])
          (c :: rest) with
      | .error e => .error e
      | .ok (none, next) => parseLoopF outer fuel next acc
      | .ok (some (k, v), next) => parseLoopF outer fuel next (upsert acc k v)

/-- `UnmarshalBytes`, with the decoder modelled from the spec: parse the
whole input into a fresh mapping.  `outer` is the surrounding process
environment that variable expansion may consult. -/
def UnmarshalBytes (outer : Str → Option Str) (src : Str) :
    Except ParseErr (List (Str × Str)) :=
  parseLoopF outer src.length src []

/-! ## Process environment and the load/overload orchestration
(from `loadFile`, `LoadFrom`, `OverloadFrom`, `ReadFrom` in godotenv.go) -/
/-- The process environment: a table of (name, value) variables. -/
abbrev Env := List (Str × Str)

/-- `os.Environ`: each variable rendered as a raw `KEY=VALUE` line. -/
def environ (env : Env) : List Str := env.map (fun p => p.1 ++ '=' :: p.2)

/-- The presence set `loadFile` computes before mutating anything: each raw
environment line split at its first `=` (Go `strings.Split(line, "=")[0]`). -/
def presentKeys (env : Env) : List Str :=
  (environ env).map (fun line => line.takeWhile (fun c => !(c == '=')))

/-- `os.Setenv`: overwrite the binding when the name exists, else append. -/
def setEnv (k v : Str) (env : Env) : Env :=
  if (lookupA env k).isSome then
    env.map (fun p => if p.1 = k then (k, v) else p)
  else env ++ [(k, v)]

/-- The mutation loop of `loadFile`: set each decoded entry when its key is
absent from the presence snapshot or `overload` is set.  The snapshot is
fixed before the loop, as in the source. -/
def applyEntries (pres : List Str) (overload : Bool) :
    List (Str × Str) → Env → Env
  | [], env => env
  | p :: rest, env =>
    applyEntries pres overload rest
      (if !(decide (p.1 ∈ pres)) || overload then setEnv p.1 p.2 env else env)

/-- Apply one decoded file map to the environment under the given policy. -/
def applyMap (m : List (Str × Str)) (overload : Bool) (env : Env) : Env :=
  applyEntries (presentKeys env) overload m env

/-- Abstract file system: file contents by path (`path.Join(dir, filename)`
is abstracted into the lookup); `none` models an `os.Open` failure. -/
abbrev FSys := Str → Option Str

/-- The error domain of the load/read operations. -/
inductive GoErr
  | ioError
  | parseFailure (e : ParseErr)
  | noEnvFileLoaded
deriving DecidableEq, Repr

/-- `readFile`: open and fully decode one file; no environment mutation. -/
def readFile (fs : FSys) (outer : Str → Option Str) (filename : Str) :
    Except GoErr (List (Str × Str)) :=
  match fs filename with
  | none => .error .ioError
  | some content =>
    match UnmarshalBytes outer content with
    | .error e => .error (.parseFailure e)
    | .ok m => .ok m

/-- The expansion view of an environment. -/
def envOuter (env : Env) : Str → Option Str := fun k => lookupA env k

/-- `loadFile`: read and decode the file, then apply its entries to the
environment; a read or decode failure returns before any mutation. -/
def loadFile (fs : FSys) (filename : Str) (overload : Bool) (env : Env) :
    Except GoErr Env :=
  match readFile fs (envOuter env) filename with
  | .error e => .error e
  | .ok m => .ok (applyMap m overload env)

/-- `filenamesOrDefault`: no filenames defaults to `.env`. -/
def filenamesOrDefault (filenames : List Str) : List Str :=
  match filenames with
  | [] => [['.', 'e', 'n', 'v']]
  | _ => filenames

/-- The loop of `LoadFrom`: strict mode returns the first failing file's
error at once (keeping the environment reached so far), non-strict skips
that file; `loaded` records whether any file succeeded, and when none did
the result is the no-env-file-loaded error. -/
def loadFromAux (fs : FSys) (strict : Bool) :
    List Str → Bool → Env → Env × Option GoErr
  | [], loaded, env => (env, if loaded then none else some .noEnvFileLoaded)
  | f :: rest, loaded, env =>
    match loadFile fs f false env with
    | .error e =>
      if strict then (env, some e) else loadFromAux fs strict rest loaded env
    | .ok env' => loadFromAux fs strict rest true env'

/-- `LoadFrom` / `Load` over the abstract file system and environment. -/
def LoadFrom (fs : FSys) (strict : Bool) (filenames : List Str) (env : Env) :
    Env × Option GoErr :=
  loadFromAux fs strict (filenamesOrDefault filenames) false env

/-- The loop of `OverloadFrom` (same control flow, overload policy). -/
def overloadFromAux (fs : FSys) (strict : Bool) :
    List Str → Bool → Env → Env × Option GoErr
  | [], loaded, env => (env, if loaded then none else some .noEnvFileLoaded)
  | f :: rest, loaded, env =>
    match loadFile fs f true env with
    | .error e =>
      if strict then (env, some e) else overloadFromAux fs strict rest loaded env
    | .ok env' => overloadFromAux fs strict rest true env'

/-- `OverloadFrom` / `Overload`. -/
def OverloadFrom (fs : FSys) (strict : Bool) (filenames : List Str) (env : Env) :
    Env × Option GoErr :=
  overloadFromAux fs strict (filenamesOrDefault filenames) false env

/-- The merge of one decoded file into the accumulated map of `ReadFrom`:
later entries overwrite earlier keys. -/
def mergeInto (acc m : List (Str × Str)) : List (Str × Str) :=
  m.foldl (fun a p => upsert a p.1 p.2) acc

/-- The loop of `ReadFrom`: like `LoadFrom` but merging into a returned
map instead of the environment; the accumulated map is returned even when
an error is (the Go named return). -/
def readFromAux (fs : FSys) (outer : Str → Option Str) (strict : Bool) :
    List Str → Bool → List (Str × Str) → List (Str × Str) × Option GoErr
  | [], loaded, acc => (acc, if loaded then none else some .noEnvFileLoaded)
  | f :: rest, loaded, acc =>
    match readFile fs outer f with
    | .error e =>
      if strict then (acc, some e) else readFromAux fs outer strict rest loaded acc
    | .ok m => readFromAux fs outer strict rest true (mergeInto acc m)

/-- `ReadFrom` / `Read`: decode the files and merge them into one map,
without touching the environment; `outer` is the ambient process
environment view the decoder may consult. -/
def ReadFrom (fs : FSys) (outer : Str → Option Str) (strict : Bool)
    (filenames : List Str) : List (Str × Str) × Option GoErr :=
  readFromAux fs outer strict (filenamesOrDefault filenames) false []

/-- Go `strings.Split(s, "\n")`: the segments of `s` between newlines. -/
def splitNL : Str → List Str
  | [] => [[]]
  | c :: rest =>
    if c = '\n' then [] :: splitNL rest
    else
      match splitNL rest with
      | s :: ss => (c :: s) :: ss
      | [] => [[c]]

/-- The specification-level description of the strings `strconv.Atoi`
accepts: an optional sign, then one or more decimal digits, with the value
inside the signed 64-bit range. -/
def intLike (v : Str) : Prop :=
  ∃ sgn ds, (sgn = [] ∨ sgn = ['-'] ∨ sgn = ['+']) ∧ v = sgn ++ ds ∧ ds ≠ [] ∧
    (∀ c ∈ ds, c.isDigit = true) ∧
    (if sgn = ['-'] then digitsVal ds ≤ 2 ^ 63 else digitsVal ds ≤ 2 ^ 63 - 1)

/-- The environment after applying the given files in order, skipping any
file whose read or decode fails (each successful file is fully applied). -/
def loadSeq (fs : FSys) (ov : Bool) : List Str → Env → Env
  | [], env => env
  | f :: rest, env =>
    match loadFile fs f ov env with
    | .error _ => loadSeq fs ov rest env
    | .ok env2 => loadSeq fs ov rest env2

/-- All files in the list read and decode successfully when processed in
order from the given environment. -/
def okSeq (fs : FSys) (ov : Bool) : List Str → Env → Bool
  | [], _ => true
  | f :: rest, env =>
    match loadFile fs f ov env with
    | .error _ => false
    | .ok env2 => okSeq fs ov rest env2

/-- Some file in the list loads successfully during in-order processing. -/
def anyOkL (fs : FSys) (ov : Bool) : List Str → Env → Bool
  | [], _ => false
  | f :: rest, env =>
    match loadFile fs f ov env with
    | .error _ => anyOkL fs ov rest env
    | .ok _ => true

/-- The common loop shape of `LoadFrom` and `OverloadFrom`, parameterized
by the overload policy. -/
def fromAux (fs : FSys) (ov strict : Bool) : List Str → Bool → Env → Env × Option GoErr
  | [], loaded, env => (env, if loaded then none else some .noEnvFileLoaded)
  | f :: rest, loaded, env =>
    match loadFile fs f ov env with
    | .error e =>
      if strict then (env, some e) else fromAux fs ov strict rest loaded env
    | .ok env2 => fromAux fs ov strict rest true env2

/-- The accumulated map after merging the given files in order, skipping
files whose read or decode fails. -/
def readSeq (fs : FSys) (outer : Str → Option Str) :
    List Str → List (Str × Str) → List (Str × Str)
  | [], acc => acc
  | f :: rest, acc =>
    match readFile fs outer f with
    | .error _ => readSeq fs outer rest acc
    | .ok m => readSeq fs outer rest (mergeInto acc m)

/-- All files in the list read and decode successfully. -/
def okSeqR (fs : FSys) (outer : Str → Option Str) : List Str → Bool
  | [] => true
  | f :: rest =>
    match readFile fs outer f with
    | .error _ => false
    | .ok _ => okSeqR fs outer rest

/-- Some file in the list reads and decodes successfully. -/
def anyOkR (fs : FSys) (outer : Str → Option Str) : List Str → Bool
  | [] => false
  | f :: rest =>
    match readFile fs outer f with
    | .error _ => anyOkR fs outer rest
    | .ok _ => true

/-! ## Lemmas: sequential replacement is a single pass (claim C3) -/
lemma replaceChar_append (c : Char) (r a b : Str) :
    replaceChar c r (a ++ b) = replaceChar c r a ++ replaceChar c r b := by
  induction a with
  | nil => rfl
  | cons x xs ih => simp [replaceChar, ih, List.append_assoc]

lemma foldl_replace_append (ps : List Char) (f : Char → Str) (a b : Str) :
    ps.foldl (fun acc c => replaceChar c (f c) acc) (a ++ b) =
      ps.foldl (fun acc c => replaceChar c (f c) acc) a ++
        ps.foldl (fun acc c => replaceChar c (f c) acc) b := by
  induction ps generalizing a b with
  | nil => rfl
  | cons p ps ih => simp only [List.foldl_cons, replaceChar_append, ih]

lemma doubleQuoteEscape_append (a b : Str) :
    doubleQuoteEscape (a ++ b) = doubleQuoteEscape a ++ doubleQuoteEscape b :=
  foldl_replace_append _ _ a b

lemma doubleQuoteEscape_single (c : Char) : doubleQuoteEscape [c] = escChar c := by
  by_cases h : c ∈ doubleQuoteSpecialChars
  · simp only [doubleQuoteSpecialChars, List.mem_cons, List.not_mem_nil, or_false] at h
    rcases h with h | h | h | h | h | h | h <;> subst h <;> rfl
  · simp only [doubleQuoteSpecialChars, List.mem_cons, List.not_mem_nil, or_false,
      not_or] at h
    obtain ⟨h1, h2, h3, h4, h5, h6, h7⟩ := h
    simp [doubleQuoteEscape, doubleQuoteSpecialChars, replaceChar, escChar,
      List.mem_cons, h1, h2, h3, h4, h5, h6, h7]

lemma doubleQuoteEscape_eq_singlePass (l : Str) :
    doubleQuoteEscape l = singlePassEscape l := by
  induction l with
  | nil => rfl
  | cons c rest ih =>
    have hsplit : (c :: rest : Str) = [c] ++ rest := rfl
    rw [hsplit, doubleQuoteEscape_append, doubleQuoteEscape_single, ih]
    rfl

/-! ## List scanning utilities -/
lemma takeWhile_append_all (p : Char → Bool) (a l : Str) (ha : ∀ x ∈ a, p x = true) :
    (a ++ l).takeWhile p = a ++ l.takeWhile p := by
  induction a with
  | nil => rfl
  | cons x xs ih =>
    have hx : p x = true := ha x (by simp)
    simp only [List.cons_append, List.takeWhile_cons, hx, if_true]
    rw [ih (fun y hy => ha y (by simp [hy]))]

lemma dropWhile_append_all (p : Char → Bool) (a l : Str) (ha : ∀ x ∈ a, p x = true) :
    (a ++ l).dropWhile p = l.dropWhile p := by
  induction a with
  | nil => rfl
  | cons x xs ih =>
    have hx : p x = true := ha x (by simp)
    simp only [List.cons_append, List.dropWhile_cons, hx, if_true]
    exact ih (fun y hy => ha y (by simp [hy]))

lemma takeWhile_all (p : Char → Bool) (l : Str) (h : ∀ x ∈ l, p x = true) :
    l.takeWhile p = l := by
  have := takeWhile_append_all p l [] h
  simpa using this

lemma dropWhile_all (p : Char → Bool) (l : Str) (h : ∀ x ∈ l, p x = true) :
    l.dropWhile p = [] := by
  have := dropWhile_append_all p l [] h
  simpa using this

lemma takeWhile_cons_false (p : Char → Bool) (c : Char) (l : Str) (h : p c = false) :
    (c :: l).takeWhile p = [] := by
  simp [List.takeWhile_cons, h]

lemma dropWhile_cons_false (p : Char → Bool) (c : Char) (l : Str) (h : p c = false) :
    (c :: l).dropWhile p = c :: l := by
  simp [List.dropWhile_cons, h]

lemma takeWhile_append_stop (p : Char → Bool) (a b : Str) (c : Char) (h : p c = false) :
    (a ++ c :: b).takeWhile p = a.takeWhile p := by
  induction a with
  | nil => simpa using takeWhile_cons_false p c b h
  | cons x xs ih =>
    by_cases hx : p x
    · simp [List.takeWhile_cons, hx, ih]
    · simp [List.takeWhile_cons, hx]

lemma length_dropWhile_le (p : Char → Bool) (l : Str) :
    (l.dropWhile p).length ≤ l.length := by
  induction l with
  | nil => simp
  | cons c rest ih =>
    by_cases h : p c
    · simp only [List.dropWhile_cons, h, if_true]
      exact Nat.le_trans ih (by simp)
    · simp [List.dropWhile_cons, h]

lemma trimWs_no_ws (l : Str) (h : ∀ x ∈ l, isWs x = false) : trimWs l = l := by
  unfold trimWs
  have h1 : l.dropWhile isWs = l := by
    cases l with
    | nil => rfl
    | cons c rest => exact dropWhile_cons_false _ _ _ (h c (by simp))
  rw [h1]
  have h2 : l.reverse.dropWhile isWs = l.reverse := by
    cases hrev : l.reverse with
    | nil => rfl
    | cons c rest =>
      refine dropWhile_cons_false _ _ _ (h c ?_)
      have : c ∈ l.reverse := by rw [hrev]; simp
      simpa using this
  rw [h2, List.reverse_reverse]

/-! ## Association list lemmas -/
lemma lookupA_append (a b : List (Str × Str)) (k : Str) :
    lookupA (a ++ b) k =
      match lookupA a k with
      | some v => some v
      | none => lookupA b k := by
  induction a with
  | nil => simp [lookupA]
  | cons p rest ih =>
    by_cases h : p.1 = k
    · simp [lookupA, h]
    · simp [lookupA, h, ih]

lemma lookupA_none_of_not_mem (l : List (Str × Str)) (k : Str)
    (h : k ∉ l.map Prod.fst) : lookupA l k = none := by
  induction l with
  | nil => rfl
  | cons p rest ih =>
    simp only [List.map_cons, List.mem_cons, not_or] at h
    have hp : ¬ p.1 = k := fun hh => h.1 hh.symm
    simp [lookupA, hp, ih h.2]

lemma lookupA_mem (l : List (Str × Str)) (k v : Str) (h : lookupA l k = some v) :
    (k, v) ∈ l := by
  induction l with
  | nil => simp [lookupA] at h
  | cons p rest ih =>
    by_cases hp : p.1 = k
    · simp only [lookupA, hp, if_true, Option.some.injEq] at h
      have hpe : p = (k, v) := by
        cases p
        simp only [Prod.mk.injEq]
        exact ⟨hp, h⟩
      rw [← hpe]
      exact List.mem_cons_self _ _
    · simp only [lookupA, hp, if_false] at h
      exact List.mem_cons_of_mem _ (ih h)

lemma lookupA_upsert (l : List (Str × Str)) (k v key : Str) :
    lookupA (upsert l k v) key = if key = k then some v else lookupA l key := by
  induction l with
  | nil =>
    by_cases h : key = k
    · simp [upsert, lookupA, h]
    · have h2 : ¬ k = key := fun hh => h hh.symm
      simp [upsert, lookupA, h, h2]
  | cons p rest ih =>
    by_cases hp : p.1 = k
    · by_cases hk : key = k
      · subst hk
        simp [upsert, lookupA, hp]
      · have h2 : ¬ k = key := fun hh => hk hh.symm
        have h3 : ¬ p.1 = key := by rw [hp]; exact h2
        simp [upsert, lookupA, hp, hk, h2, h3]
    · by_cases hpk : p.1 = key
      · have hk : ¬ key = k := by
          rw [← hpk]
          exact fun hh => hp hh
        simp [upsert, lookupA, hp, hpk, hk]
      · simp [upsert, lookupA, hp, hpk, ih]

lemma foldl_upsert_lookup (m : List (Str × Str)) (acc : List (Str × Str)) (key : Str)
    (hnodup : (m.map Prod.fst).Nodup) :
    lookupA (m.foldl (fun a p => upsert a p.1 p.2) acc) key =
      match lookupA m key with
      | some v => some v
      | none => lookupA acc key := by
  induction m generalizing acc with
  | nil => simp [lookupA]
  | cons p rest ih =>
    simp only [List.map_cons, List.nodup_cons] at hnodup
    rw [List.foldl_cons, ih _ hnodup.2]
    by_cases h : p.1 = key
    · have hnone : lookupA rest key = none := by
        apply lookupA_none_of_not_mem
        rw [← h]
        exact hnodup.1
      subst h
      simp [lookupA, hnone, lookupA_upsert]
    · have hkey : ¬ key = p.1 := fun hh => h hh.symm
      simp only [lookupA, h, if_false]
      cases hrest : lookupA rest key
      · simp [lookupA_upsert, hkey]
      · rfl

lemma lookupA_perm (m m' : List (Str × Str)) (hp : m.Perm m')
    (hnodup : (m.map Prod.fst).Nodup) (key : Str) :
    lookupA m key = lookupA m' key := by
  induction hp with
  | nil => rfl
  | cons p _ ih =>
    simp only [List.map_cons, List.nodup_cons] at hnodup
    by_cases h : p.1 = key <;> simp [lookupA, h, ih hnodup.2]
  | swap p q rest =>
    simp only [List.map_cons, List.nodup_cons, List.mem_cons, not_or] at hnodup
    by_cases hq : q.1 = key
    · by_cases hp2 : p.1 = key
      · exact absurd (hq.trans hp2.symm) hnodup.1.1
      · simp [lookupA, hq, hp2]
    · by_cases hp2 : p.1 = key <;> simp [lookupA, hq, hp2]
  | trans h₁ _ ih₁ ih₂ =>
    rw [ih₁ hnodup]
    refine ih₂ ?_
    exact ((h₁.map Prod.fst).nodup_iff).mp hnodup

/-! ## Character class facts -/
lemma ident_props {c : Char} (h : isIdentChar c = true) :
    isWs c = false ∧ ¬ c = '\n' ∧ ¬ c = '#' ∧ ¬ c = '=' ∧ ¬ c = '$' ∧
      ¬ c = dquote ∧ ¬ c = squote := by
  have hsp : ¬ c = ' ' := fun hc => absurd (hc ▸ h) (by decide)
  have hta : ¬ c = '\t' := fun hc => absurd (hc ▸ h) (by decide)
  refine ⟨by simp [isWs, hsp, hta], ?_, ?_, ?_, ?_, ?_, ?_⟩ <;>
    exact fun hc => absurd (hc ▸ h) (by decide)

lemma digit_props {c : Char} (h : c.isDigit = true) :
    isWs c = false ∧ ¬ c = '\n' ∧ ¬ c = '$' ∧ ¬ c = dquote ∧ ¬ c = squote := by
  have hsp : ¬ c = ' ' := fun hc => absurd (hc ▸ h) (by decide)
  have hta : ¬ c = '\t' := fun hc => absurd (hc ▸ h) (by decide)
  refine ⟨by simp [isWs, hsp, hta], ?_, ?_, ?_, ?_⟩ <;>
    exact fun hc => absurd (hc ▸ h) (by decide)

/-! ## Integer rendering facts -/
lemma natDecAux_digits : ∀ (fuel n : Nat), ∀ c ∈ natDecAux fuel n, c.isDigit = true := by
  intro fuel
  induction fuel with
  | zero => intro n c hc; simp [natDecAux] at hc
  | succ f ih =>
    intro n c hc
    cases n with
    | zero => simp [natDecAux] at hc
    | succ m =>
      simp only [natDecAux, List.mem_append, List.mem_singleton] at hc
      rcases hc with hc | hc
      · exact ih _ _ hc
      · subst hc
        have h10 : (m + 1) % 10 < 10 := Nat.mod_lt _ (by omega)
        set r := (m + 1) % 10 with hr
        interval_cases r <;> decide

lemma natDecimal_digits (n : Nat) : ∀ c ∈ natDecimal n, c.isDigit = true := by
  intro c hc
  unfold natDecimal at hc
  by_cases h : n = 0
  · simp [h] at hc
    subst hc
    decide
  · simp only [h, if_false] at hc
    exact natDecAux_digits _ _ _ hc

lemma natDecimal_ne_nil (n : Nat) : natDecimal n ≠ [] := by
  unfold natDecimal
  by_cases h : n = 0
  · simp [h]
  · simp only [h, if_false]
    obtain ⟨m, rfl⟩ : ∃ m, n = m + 1 := ⟨n - 1, by omega⟩
    simp [natDecAux]

lemma intDecimal_chars (d : Int) : ∀ c ∈ intDecimal d, c.isDigit = true ∨ c = '-' := by
  intro c hc
  unfold intDecimal at hc
  by_cases h : d < 0
  · simp only [h, if_true, List.mem_cons] at hc
    rcases hc with rfl | hc
    · right; rfl
    · left; exact natDecimal_digits _ _ hc
  · simp only [h, if_false] at hc
    left; exact natDecimal_digits _ _ hc

lemma intDecimal_ne_nil (d : Int) : intDecimal d ≠ [] := by
  unfold intDecimal
  by_cases h : d < 0
  · simp [h]
  · simp [h, natDecimal_ne_nil]

lemma intDecimal_props (d : Int) : ∀ c ∈ intDecimal d,
    isWs c = false ∧ ¬ c = '\n' ∧ ¬ c = '$' ∧ ¬ c = dquote ∧ ¬ c = squote := by
  intro c hc
  rcases intDecimal_chars d c hc with h | rfl
  · exact digit_props h
  · exact ⟨by decide, by decide, by decide, by decide, by decide⟩

/-! ## Decoder helper lemmas -/
lemma readRef_rest_le (resolve : Str → Str) (rest : Str) :
    (readRef resolve rest).2.length ≤ rest.length := by
  unfold readRef
  cases rest with
  | nil => simp
  | cons c r =>
    by_cases hc : c = obrace
    · simp only [hc, if_true]
      cases hdrop : r.dropWhile isIdentChar with
      | nil => simp
      | cons c' r' =>
        by_cases hc' : c' = cbrace
        · simp only [hc', if_true]
          have h1 : (c' :: r').length ≤ r.length := hdrop ▸ length_dropWhile_le _ _
          simp only [List.length_cons] at h1 ⊢
          omega
        · simp [hc']
    · by_cases hid : isIdentChar c
      · simp only [hc, if_false, hid, if_true]
        have := length_dropWhile_le isIdentChar (c :: r)
        simpa using this
      · simp [hc, hid]

lemma consumeEol_newline (t : Str) : consumeEol ('\n' :: t) = t := rfl

lemma consumeEol_skip (a cont : Str) (ha : ∀ x ∈ a, ¬ x = '\n')
    (hc : cont = [] ∨ ∃ t, cont = '\n' :: t) :
    consumeEol (a ++ cont) = cont.tail := by
  unfold consumeEol
  have hpa : ∀ x ∈ a, (fun c => !(c == '\n')) x = true := by
    intro x hx
    simp [ha x hx]
  rw [dropWhile_append_all _ _ _ hpa]
  rcases hc with rfl | ⟨t, rfl⟩
  · simp
  · rw [dropWhile_cons_false _ _ _ (by simp)]
    rfl

lemma cutComment_no_ws : ∀ (l : Str), (∀ x ∈ l, isWs x = false) → cutComment l = l
  | [], _ => rfl
  | [_], _ => rfl
  | c :: c' :: rest, h => by
    have hc : isWs c = false := h c (by simp)
    rw [cutComment, if_neg (by simp [hc])]
    rw [cutComment_no_ws (c' :: rest) (fun x hx => h x (by simp [hx]))]

lemma expandVarsF_no_dollar (resolve : Str → Str) :
    ∀ (fuel : Nat) (l : Str), l.length ≤ fuel → (∀ x ∈ l, ¬ x = '$') →
      expandVarsF resolve fuel l = l := by
  intro fuel
  induction fuel with
  | zero =>
    intro l h _
    cases l with
    | nil => rfl
    | cons c rest => simp at h
  | succ f ih =>
    intro l h hd
    cases l with
    | nil => rfl
    | cons c rest =>
      have hc : ¬ c = '$' := hd c (by simp)
      simp only [expandVarsF, hc, if_false]
      rw [ih rest (by simp only [List.length_cons] at h; omega)
        (fun x hx => hd x (by simp [hx]))]

lemma expandVars_no_dollar (resolve : Str → Str) (l : Str)
    (hd : ∀ x ∈ l, ¬ x = '$') : expandVars resolve l = l :=
  expandVarsF_no_dollar resolve l.length l (le_refl _) hd

lemma parseDQF_close (resolve : Str → Str) (f : Nat) (cont : Str) :
    parseDQF resolve (f + 1) (dquote :: cont) = .ok ([], cont) := by
  simp [parseDQF]

lemma parseDQF_cons_escape (resolve : Str → Str) (f : Nat) (r : Str) (e : Char)
    (he : e ∈ dqEscapable) :
    parseDQF resolve (f + 1) ('\\' :: e :: r) =
      (parseDQF resolve f r).map (fun p => (escDecode e :: p.1, p.2)) := by
  have h1 : ¬ ('\\' : Char) = dquote := by decide
  simp [parseDQF, h1, he]

lemma parseDQF_cons_plain (resolve : Str → Str) (f : Nat) (r : Str) (c : Char)
    (h1 : ¬ c = dquote) (h2 : ¬ c = '\\') (h3 : ¬ c = '$') :
    parseDQF resolve (f + 1) (c :: r) =
      (parseDQF resolve f r).map (fun p => (c :: p.1, p.2)) := by
  simp [parseDQF, h1, h2, h3]

lemma parseDQF_cons_special (resolve : Str → Str) (f : Nat) (r : Str) (c : Char)
    (hc : c ∈ doubleQuoteSpecialChars) :
    parseDQF resolve (f + 2) (escapeRepl c ++ r) =
      (parseDQF resolve (f + 1) r).map (fun p => (c :: p.1, p.2)) := by
  simp only [doubleQuoteSpecialChars, List.mem_cons, List.not_mem_nil, or_false] at hc
  rcases hc with rfl | rfl | rfl | rfl | rfl | rfl | rfl <;>
    exact parseDQF_cons_escape resolve (f + 1) r _ (by decide)

lemma parseDQF_singlePass (resolve : Str → Str) :
    ∀ (v cont : Str) (fuel : Nat), (singlePassEscape v).length + 1 ≤ fuel →
      parseDQF resolve fuel (singlePassEscape v ++ dquote :: cont) = .ok (v, cont) := by
  intro v
  induction v with
  | nil =>
    intro cont fuel hf
    obtain ⟨f, rfl⟩ : ∃ f, fuel = f + 1 := ⟨fuel - 1, by omega⟩
    simpa [singlePassEscape] using parseDQF_close resolve f cont
  | cons c v ih =>
    intro cont fuel hf
    have hsp : singlePassEscape (c :: v) = escChar c ++ singlePassEscape v := rfl
    by_cases hc : c ∈ doubleQuoteSpecialChars
    · have hesc : escChar c = escapeRepl c := by simp [escChar, hc]
      have hlen2 : (escapeRepl c).length = 2 := by
        unfold escapeRepl
        by_cases h1 : c = '\n'
        · simp [h1]
        · by_cases h2 : c = '\r' <;> simp [h1, h2]
      rw [hsp, hesc] at hf ⊢
      simp only [List.length_append, hlen2] at hf
      obtain ⟨f, rfl⟩ : ∃ f, fuel = f + 2 := ⟨fuel - 2, by omega⟩
      rw [List.append_assoc, parseDQF_cons_special resolve f _ c hc,
        ih cont (f + 1) (by omega)]
      rfl
    · have hesc : escChar c = [c] := by simp [escChar, hc]
      simp only [doubleQuoteSpecialChars, List.mem_cons, List.not_mem_nil, or_false,
        not_or] at hc
      rw [hsp, hesc] at hf ⊢
      simp only [List.length_append, List.length_cons, List.length_nil] at hf
      obtain ⟨f, rfl⟩ : ∃ f, fuel = f + 1 := ⟨fuel - 1, by omega⟩
      have hshape : ([c] ++ singlePassEscape v) ++ dquote :: cont =
          c :: (singlePassEscape v ++ dquote :: cont) := by simp
      rw [hshape,
        parseDQF_cons_plain resolve f (singlePassEscape v ++ dquote :: cont) c
          hc.2.2.2.1 hc.1 hc.2.2.2.2.2.1,
        ih cont f (by omega)]
      rfl

lemma stripExport_of_ident (k rest : Str) (hk : ∀ c ∈ k, isIdentChar c = true) :
    stripExport (k ++ '=' :: rest) = k ++ '=' :: rest := by
  unfold stripExport
  rcases Nat.lt_or_ge k.length 6 with hlen | hlen
  · have hmem : ('=' : Char) ∈ (k ++ '=' :: rest).take 6 := by
      rw [List.take_append_eq_append_take, List.take_of_length_le (le_of_lt hlen)]
      refine List.mem_append_right _ ?_
      obtain ⟨mm, hmm⟩ : ∃ mm, 6 - k.length = mm + 1 := ⟨6 - k.length - 1, by omega⟩
      rw [hmm, List.take_succ_cons]
      exact List.mem_cons_self _ _
    have hne : ¬ (k ++ '=' :: rest).take 6 = ['e', 'x', 'p', 'o', 'r', 't'] := by
      intro he
      rw [he] at hmem
      exact absurd hmem (by decide)
    rw [if_neg (by simp [hne])]
  · have hdz : 6 - k.length = 0 := by omega
    have hdrop : (k ++ '=' :: rest).drop 6 = k.drop 6 ++ '=' :: rest := by
      rw [List.drop_append_eq_append_drop, hdz, List.drop_zero]
    have hany : ((k ++ '=' :: rest).drop 6).head?.any isWs = false := by
      rw [hdrop]
      cases hd : k.drop 6 with
      | nil =>
        simp only [List.nil_append, List.head?_cons, Option.any_some]
        decide
      | cons c t =>
        have hcmem : c ∈ k :=
          List.mem_of_mem_drop (by rw [hd]; exact List.mem_cons_self _ _)
        have hcw := (ident_props (hk c hcmem)).1
        simp [Option.any_some, hcw]
    have hany' : Option.any isWs (k ++ '=' :: rest)[6]? = false := by
      rw [← List.head?_drop]
      exact hany
    rw [if_neg (by simp [hany'])]

lemma parseLine_marshal (resolve : Str → Str) (k v : Str) (hne : k ≠ [])
    (hk : ∀ c ∈ k, isIdentChar c = true)
    (hv : ∀ d, atoi? v = some d → v = intDecimal d)
    (cont : Str) (hcont : cont = [] ∨ ∃ t, cont = '\n' :: t) :
    parseLine resolve (marshalLine k v ++ cont) = .ok (some (k, v), cont.tail) := by
  obtain ⟨k0, ktl, rfl⟩ : ∃ k0 ktl, k = k0 :: ktl := by
    cases k with
    | nil => exact absurd rfl hne
    | cons a b => exact ⟨a, b, rfl⟩
  have hk0 := ident_props (hk k0 (List.mem_cons_self _ _))
  have hpredk : ∀ x ∈ k0 :: ktl, (fun x => !(x == '=' || x == '\n')) x = true := by
    intro x hx
    have h := ident_props (hk x hx)
    simp [h.2.1, h.2.2.2.1]
  have hkws : ∀ x ∈ k0 :: ktl, isWs x = false := fun x hx => (ident_props (hk x hx)).1
  have htrimk : trimWs (k0 :: ktl) = k0 :: ktl := trimWs_no_ws _ hkws
  cases hav : atoi? v with
  | some d =>
    have hvd : v = intDecimal d := hv d hav
    have hml : (marshalLine (k0 :: ktl) v ++ cont : Str) =
        k0 :: (ktl ++ '=' :: (intDecimal d ++ cont)) := by
      simp [marshalLine, hav]
    rw [hml]
    have hi := intDecimal_props d
    obtain ⟨i0, itl, hieq⟩ : ∃ i0 itl, intDecimal d = i0 :: itl := by
      cases hii : intDecimal d with
      | nil => exact absurd hii (intDecimal_ne_nil d)
      | cons a b => exact ⟨a, b, rfl⟩
    have hi0 := hi i0 (by rw [hieq]; exact List.mem_cons_self _ _)
    have e1 : (k0 :: (ktl ++ '=' :: (intDecimal d ++ cont))).dropWhile isWs =
        k0 :: (ktl ++ '=' :: (intDecimal d ++ cont)) :=
      dropWhile_cons_false _ _ _ hk0.1
    have e2 : stripExport (k0 :: (ktl ++ '=' :: (intDecimal d ++ cont))) =
        (k0 :: ktl) ++ '=' :: (intDecimal d ++ cont) :=
      stripExport_of_ident (k0 :: ktl) _ hk
    have e4 : ((k0 :: ktl) ++ '=' :: (intDecimal d ++ cont)).dropWhile
        (fun x => !(x == '=' || x == '\n')) = '=' :: (intDecimal d ++ cont) := by
      rw [dropWhile_append_all _ _ _ hpredk]
      exact dropWhile_cons_false _ _ _ (by decide)
    have e3 : ((k0 :: ktl) ++ '=' :: (intDecimal d ++ cont)).takeWhile
        (fun x => !(x == '=' || x == '\n')) = k0 :: ktl := by
      rw [takeWhile_append_all _ _ _ hpredk,
        takeWhile_cons_false _ _ _ (by decide), List.append_nil]
    have e5 : (intDecimal d ++ cont).dropWhile isWs = i0 :: (itl ++ cont) := by
      rw [hieq, List.cons_append]
      exact dropWhile_cons_false _ _ _ hi0.1
    have e6 : (intDecimal d ++ cont).takeWhile (fun x => !(x == '\n')) =
        intDecimal d := by
      have hp : ∀ x ∈ intDecimal d, (fun x => !(x == '\n')) x = true := by
        intro x hx
        simp [(hi x hx).2.1]
      rcases hcont with rfl | ⟨t, rfl⟩
      · rw [List.append_nil, takeWhile_all _ _ hp]
      · rw [takeWhile_append_stop _ _ _ _ (by decide), takeWhile_all _ _ hp]
    have e7 : cutComment (intDecimal d) = intDecimal d :=
      cutComment_no_ws _ (fun x hx => (hi x hx).1)
    have e8 : trimWs (intDecimal d) = intDecimal d :=
      trimWs_no_ws _ (fun x hx => (hi x hx).1)
    have e9 : expandVars resolve (intDecimal d) = intDecimal d :=
      expandVars_no_dollar resolve _ (fun x hx => (hi x hx).2.2.1)
    have e10 : consumeEol (intDecimal d ++ cont) = cont.tail :=
      consumeEol_skip _ _ (fun x hx => (hi x hx).2.1) hcont
    simp only [parseLine, e1, if_neg hk0.2.1, if_neg hk0.2.2.1, e2, e4, e3,
      if_pos rfl, htrimk, if_neg (List.cons_ne_nil k0 ktl), e5,
      if_neg hi0.2.2.2.1, if_neg hi0.2.2.2.2, e6, e7, e8, e9, e10, not_true,
      if_false]
    rw [← hvd]
  | none =>
    have hml : (marshalLine (k0 :: ktl) v ++ cont : Str) =
        k0 :: (ktl ++ '=' :: (dquote :: (doubleQuoteEscape v ++ dquote :: cont))) := by
      simp [marshalLine, hav]
    rw [hml]
    have e1 : (k0 :: (ktl ++ '=' :: (dquote :: (doubleQuoteEscape v ++ dquote ::
        cont)))).dropWhile isWs =
        k0 :: (ktl ++ '=' :: (dquote :: (doubleQuoteEscape v ++ dquote :: cont))) :=
      dropWhile_cons_false _ _ _ hk0.1
    have e2 : stripExport (k0 :: (ktl ++ '=' :: (dquote :: (doubleQuoteEscape v ++
        dquote :: cont)))) =
        (k0 :: ktl) ++ '=' :: (dquote :: (doubleQuoteEscape v ++ dquote :: cont)) :=
      stripExport_of_ident (k0 :: ktl) _ hk
    have e4 : ((k0 :: ktl) ++ '=' :: (dquote :: (doubleQuoteEscape v ++ dquote ::
        cont))).dropWhile (fun x => !(x == '=' || x == '\n')) =
        '=' :: (dquote :: (doubleQuoteEscape v ++ dquote :: cont)) := by
      rw [dropWhile_append_all _ _ _ hpredk]
      exact dropWhile_cons_false _ _ _ (by decide)
    have e3 : ((k0 :: ktl) ++ '=' :: (dquote :: (doubleQuoteEscape v ++ dquote ::
        cont))).takeWhile (fun x => !(x == '=' || x == '\n')) = k0 :: ktl := by
      rw [takeWhile_append_all _ _ _ hpredk,
        takeWhile_cons_false _ _ _ (by decide), List.append_nil]
    have e5 : (dquote :: (doubleQuoteEscape v ++ dquote :: cont)).dropWhile isWs =
        dquote :: (doubleQuoteEscape v ++ dquote :: cont) :=
      dropWhile_cons_false _ _ _ (by decide)
    have e6 : parseDQF resolve (doubleQuoteEscape v ++ dquote :: cont).length
        (doubleQuoteEscape v ++ dquote :: cont) = .ok (v, cont) := by
      rw [doubleQuoteEscape_eq_singlePass]
      exact parseDQF_singlePass resolve v cont _ (by simp)
    have e7 : consumeEol cont = cont.tail := by
      rcases hcont with rfl | ⟨t, rfl⟩
      · rfl
      · exact consumeEol_newline t
    simp only [parseLine, e1, if_neg hk0.2.1, if_neg hk0.2.2.1, e2, e4, e3,
      if_pos rfl, htrimk, if_neg (List.cons_ne_nil k0 ktl), e5, if_pos rfl, e6,
      e7, not_true, if_false, if_true]

lemma parseLoopF_nil (outer : Str → Option Str) :
    ∀ (f : Nat) (acc : List (Str × Str)), parseLoopF outer f [] acc = .ok acc := by
  intro f acc
  cases f <;> rfl

lemma marshalLine_ne_nil (k v : Str) : marshalLine k v ≠ [] := by
  unfold marshalLine
  cases atoi? v <;> simp

lemma parseLoopF_marshalled (outer : Str → Option Str) :
    ∀ (entries : List (Str × Str)) (acc : List (Str × Str)) (fuel : Nat),
      (joinNL (entries.map fun p => marshalLine p.1 p.2)).length ≤ fuel →
      (∀ p ∈ entries, p.1 ≠ [] ∧ (∀ c ∈ p.1, isIdentChar c = true) ∧
        ∀ d, atoi? p.2 = some d → p.2 = intDecimal d) →
      parseLoopF outer fuel (joinNL (entries.map fun p => marshalLine p.1 p.2)) acc =
        .ok (entries.foldl (fun a p => upsert a p.1 p.2) acc) := by
  intro entries
  induction entries with
  | nil =>
    intro acc fuel _ _
    simp only [List.map_nil, joinNL, List.foldl_nil]
    exact parseLoopF_nil outer fuel acc
  | cons p rest ih =>
    intro acc fuel hf hp
    have hps := hp p (List.mem_cons_self _ _)
    have hlnil := marshalLine_ne_nil p.1 p.2
    obtain ⟨c, lt, hline⟩ : ∃ c lt, marshalLine p.1 p.2 = c :: lt := by
      cases hl : marshalLine p.1 p.2 with
      | nil => exact absurd hl hlnil
      | cons a b => exact ⟨a, b, rfl⟩
    cases hrest : rest.map (fun q => marshalLine q.1 q.2) with
    | nil =>
      have hrnil : rest = [] := List.map_eq_nil_iff.mp hrest
      subst hrnil
      simp only [List.map_cons, List.map_nil, joinNL] at hf ⊢
      obtain ⟨f, rfl⟩ : ∃ f, fuel = f + 1 := by
        refine ⟨fuel - 1, ?_⟩
        rw [hline] at hf
        simp only [List.length_cons] at hf
        omega
      rw [hline]
      simp only [parseLoopF]
      have hpl : parseLine
          (fun name => ((lookupA acc name).or (outer name)).getD []) (c :: lt) =
          .ok (some (p.1, p.2), ([] : Str).tail) := by
        rw [← hline, ← List.append_nil (marshalLine p.1 p.2)]
        exact parseLine_marshal _ p.1 p.2 hps.1 hps.2.1 hps.2.2 [] (Or.inl rfl)
      rw [hpl]
      simp only [List.tail_nil, List.foldl_cons, List.foldl_nil]
      exact parseLoopF_nil outer f _
    | cons L Ls =>
      simp only [List.map_cons, hrest, joinNL] at hf ⊢
      obtain ⟨f, rfl⟩ : ∃ f, fuel = f + 1 := by
        refine ⟨fuel - 1, ?_⟩
        rw [hline] at hf
        simp only [List.length_cons, List.length_append] at hf
        omega
      have hfle : (joinNL (L :: Ls)).length ≤ f := by
        rw [hline] at hf
        simp only [List.cons_append, List.length_cons, List.length_append,
          List.length_cons] at hf
        omega
      rw [hline, List.cons_append]
      simp only [parseLoopF]
      have hpl : parseLine
          (fun name => ((lookupA acc name).or (outer name)).getD [])
          (c :: (lt ++ '\n' :: joinNL (L :: Ls))) =
          .ok (some (p.1, p.2), joinNL (L :: Ls)) := by
        rw [show (c :: (lt ++ '\n' :: joinNL (L :: Ls)) : Str) =
          (c :: lt) ++ '\n' :: joinNL (L :: Ls) from rfl, ← hline]
        exact parseLine_marshal _ p.1 p.2 hps.1 hps.2.1 hps.2.2 _
          (Or.inr ⟨joinNL (L :: Ls), rfl⟩)
      rw [hpl]
      simp only [List.foldl_cons]
      have := ih (upsert acc p.1 p.2) f (by rw [hrest]; exact hfle)
        (fun q hq => hp q (List.mem_cons_of_mem _ hq))
      rw [hrest] at this
      exact this

lemma map_perm_lift (f : Str × Str → Str) :
    ∀ (s : List Str) (m : List (Str × Str)),
      s.Perm (m.map f) →
        ∃ m2 : List (Str × Str), m2.Perm m ∧ m2.map f = s := by
  intro s
  induction s with
  | nil =>
    intro m hp
    have hmap : m.map f = [] := hp.symm.eq_nil
    have hm : m = [] := List.map_eq_nil_iff.mp hmap
    exact ⟨[], by simp [hm]⟩
  | cons b s ih =>
    intro m hp
    have hb : b ∈ m.map f := hp.subset (List.mem_cons_self _ _)
    obtain ⟨a, ha, rfl⟩ := List.mem_map.mp hb
    obtain ⟨mL, mR, rfl⟩ := List.append_of_mem ha
    have hperm : s.Perm ((mL ++ mR).map f) := by
      have h2 : ((mL ++ a :: mR).map f).Perm (f a :: (mL ++ mR).map f) := by
        simp only [List.map_append, List.map_cons]
        exact List.perm_middle
      exact (List.perm_cons _).mp (hp.trans h2)
    obtain ⟨m3, hm3p, hm3e⟩ := ih (mL ++ mR) hperm
    refine ⟨a :: m3, ?_, by simp [hm3e]⟩
    exact (hm3p.cons a).trans List.perm_middle.symm

lemma splitNL_no_nl (l : Str) (h : '\n' ∉ l) : splitNL l = [l] := by
  induction l with
  | nil => rfl
  | cons c rest ih =>
    simp only [List.mem_cons, not_or] at h
    have hc : ¬ c = '\n' := fun hh => h.1 hh.symm
    simp only [splitNL, hc, if_false]
    rw [ih h.2]

lemma splitNL_append (l rest : Str) (h : '\n' ∉ l) :
    splitNL (l ++ '\n' :: rest) = l :: splitNL rest := by
  induction l with
  | nil => simp [splitNL]
  | cons c t ih =>
    simp only [List.mem_cons, not_or] at h
    have hc : ¬ c = '\n' := fun hh => h.1 hh.symm
    simp only [List.cons_append, splitNL, hc, if_false]
    simp only [List.append_eq]
    rw [ih h.2]

lemma splitNL_joinNL : ∀ (ls : List Str), ls ≠ [] → (∀ l ∈ ls, '\n' ∉ l) →
    splitNL (joinNL ls) = ls
  | [], h, _ => absurd rfl h
  | [l], _, h => by
    simp only [joinNL]
    exact splitNL_no_nl l (h l (List.mem_cons_self _ _))
  | l :: l2 :: ls, _, h => by
    simp only [joinNL]
    rw [splitNL_append _ _ (h l (List.mem_cons_self _ _)),
      splitNL_joinNL (l2 :: ls) (by simp) (fun x hx => h x (List.mem_cons_of_mem _ hx))]

lemma joinNL_ne_nil (l : Str) (ls : List Str) (h : l ≠ []) : joinNL (l :: ls) ≠ [] := by
  cases ls with
  | nil => exact h
  | cons l2 ls2 =>
    simp only [joinNL]
    simp [h]

lemma joinNL_getLast : ∀ (ls : List Str), (∀ l ∈ ls, l ≠ [] ∧ '\n' ∉ l) →
    (joinNL ls).getLast? ≠ some '\n' := by
  intro ls
  induction ls with
  | nil =>
    intro _
    simp [joinNL]
  | cons l ls ih =>
    intro h
    cases ls with
    | nil =>
      have hl := h l (List.mem_cons_self _ _)
      simp only [joinNL]
      intro hcon
      exact hl.2 (List.mem_of_mem_getLast? hcon)
    | cons l2 ls2 =>
      have hl2 := h l2 (List.mem_cons_of_mem _ (List.mem_cons_self _ _))
      simp only [joinNL, List.getLast?_append, List.getLast?_cons]
      have hjne : joinNL (l2 :: ls2) ≠ [] := joinNL_ne_nil l2 ls2 hl2.1
      obtain ⟨x, hx⟩ : ∃ x, (joinNL (l2 :: ls2)).getLast? = some x := by
        cases hgl : (joinNL (l2 :: ls2)).getLast? with
        | none => exact absurd (List.getLast?_eq_none_iff.mp hgl) hjne
        | some x => exact ⟨x, rfl⟩
      have hxne : ¬ x = '\n' := by
        intro hh
        subst hh
        exact (ih (fun y hy => h y (List.mem_cons_of_mem _ hy))) hx
      rw [hx]
      simp [Option.or, hxne]

lemma singlePass_no_nl (v : Str) : '\n' ∉ singlePassEscape v := by
  induction v with
  | nil => simp [singlePassEscape]
  | cons c rest ih =>
    simp only [singlePassEscape, List.mem_append, not_or]
    refine ⟨?_, ih⟩
    by_cases hc : c ∈ doubleQuoteSpecialChars
    · simp only [doubleQuoteSpecialChars, List.mem_cons, List.not_mem_nil,
        or_false] at hc
      rcases hc with rfl | rfl | rfl | rfl | rfl | rfl | rfl <;> decide
    · have hcn : ¬ c = '\n' := by
        intro hh
        exact hc (by rw [hh]; simp [doubleQuoteSpecialChars])
      simp only [escChar, hc, if_false, List.mem_singleton]
      exact fun hh => hcn hh.symm

lemma marshalLine_no_nl (k v : Str) (hk : '\n' ∉ k) : '\n' ∉ marshalLine k v := by
  unfold marshalLine
  cases hav : atoi? v with
  | some d =>
    simp only [List.mem_append, List.mem_cons, not_or]
    refine ⟨hk, by decide, ?_⟩
    intro hmem
    exact (intDecimal_props d '\n' hmem).2.1 rfl
  | none =>
    simp only [List.mem_append, List.mem_cons, not_or]
    refine ⟨hk, by decide, by decide, ?_⟩
    rw [doubleQuoteEscape_eq_singlePass]
    exact ⟨singlePass_no_nl v, by decide, by simp⟩

/-! ## Claim theorems and witnesses -/
/-- C1 as stated fails on the code: the mapping with the single entry
`N = "042"` has no unrepresentable characters, yet `Marshal` emits the
unquoted line `N=42` (the bare `strconv.Atoi` check accepts `"042"`), so
decoding the encoded text yields `N = "42"`, a different mapping. -/
theorem C1_counterexample :
    Marshal [(['N'], ['0', '4', '2'])] = ['N', '=', '4', '2'] ∧
    UnmarshalBytes (fun _ => none) (Marshal [(['N'], ['0', '4', '2'])]) =
      .ok [(['N'], ['4', '2'])] ∧
    ¬ lookupA [(['N'], ['4', '2'])] ['N'] =
        lookupA [(['N'], ['0', '4', '2'])] ['N'] :=
  ⟨rfl, rfl, by decide⟩

/-- C1 (amended): for every Mapping with identifier-like keys (nonempty;
letters, digits, underscore), distinct keys, and values not corrupted by
the numeric fast path (any value accepted by `strconv.Atoi` equals the
decimal rendering of its parsed value), decoding the text produced by
`Marshal` succeeds and yields a mapping with exactly the same bindings —
for any surrounding process environment consulted by expansion. -/
theorem C1_round_trip_amended (m : List (Str × Str))
    (hk : ∀ p ∈ m, p.1 ≠ [] ∧ ∀ c ∈ p.1, isIdentChar c = true)
    (hnodup : (m.map Prod.fst).Nodup)
    (hnum : ∀ p ∈ m, ∀ d : Int, atoi? p.2 = some d → p.2 = intDecimal d)
    (outer : Str → Option Str) :
    ∃ res, UnmarshalBytes outer (Marshal m) = .ok res ∧
      ∀ key, lookupA res key = lookupA m key := by
  have hperm : (List.insertionSort (· ≤ ·)
      (m.map fun p => marshalLine p.1 p.2)).Perm (m.map fun p => marshalLine p.1 p.2) :=
    List.perm_insertionSort _ _
  obtain ⟨m2, hm2p, hm2e⟩ := map_perm_lift (fun p => marshalLine p.1 p.2) _ m hperm
  have hm2nodup : (m2.map Prod.fst).Nodup := ((hm2p.map Prod.fst).nodup_iff).mpr hnodup
  have hprops : ∀ p ∈ m2, p.1 ≠ [] ∧ (∀ c ∈ p.1, isIdentChar c = true) ∧
      ∀ d : Int, atoi? p.2 = some d → p.2 = intDecimal d := by
    intro p hp
    have hpm : p ∈ m := hm2p.subset hp
    exact ⟨(hk p hpm).1, (hk p hpm).2, hnum p hpm⟩
  have hmarshal : Marshal m = joinNL (m2.map fun p => marshalLine p.1 p.2) := by
    unfold Marshal
    rw [hm2e]
  refine ⟨m2.foldl (fun a p => upsert a p.1 p.2) [], ?_, ?_⟩
  · unfold UnmarshalBytes
    rw [hmarshal]
    exact parseLoopF_marshalled outer m2 [] _ (le_refl _) hprops
  · intro key
    rw [foldl_upsert_lookup m2 [] key hm2nodup]
    have hmatch : (match lookupA m2 key with
        | some v => some v
        | none => lookupA ([] : List (Str × Str)) key) = lookupA m2 key := by
      cases lookupA m2 key <;> simp [lookupA]
    rw [hmatch]
    exact lookupA_perm m2 m hm2p hm2nodup key

/-- Witness for C1 (amended) at the concrete mapping
`[A = "x y", N = "42"]`. -/
theorem C1_round_trip_amended_witness :
    (∀ p ∈ ([(['A'], ['x', ' ', 'y']), (['N'], ['4', '2'])] : List (Str × Str)),
      p.1 ≠ [] ∧ ∀ c ∈ p.1, isIdentChar c = true) ∧
    (([(['A'], ['x', ' ', 'y']), (['N'], ['4', '2'])] : List (Str × Str)).map
      Prod.fst).Nodup ∧
    (∀ p ∈ ([(['A'], ['x', ' ', 'y']), (['N'], ['4', '2'])] : List (Str × Str)),
      ∀ d : Int, atoi? p.2 = some d → p.2 = intDecimal d) ∧
    ∃ res, UnmarshalBytes (fun _ => none)
        (Marshal [(['A'], ['x', ' ', 'y']), (['N'], ['4', '2'])]) = .ok res ∧
      ∀ key, lookupA res key =
        lookupA [(['A'], ['x', ' ', 'y']), (['N'], ['4', '2'])] key := by
  have h1 : ∀ p ∈ ([(['A'], ['x', ' ', 'y']), (['N'], ['4', '2'])] :
      List (Str × Str)), p.1 ≠ [] ∧ ∀ c ∈ p.1, isIdentChar c = true := by decide
  have h2 : (([(['A'], ['x', ' ', 'y']), (['N'], ['4', '2'])] :
      List (Str × Str)).map Prod.fst).Nodup := by decide
  have h3 : ∀ p ∈ ([(['A'], ['x', ' ', 'y']), (['N'], ['4', '2'])] :
      List (Str × Str)), ∀ d : Int, atoi? p.2 = some d → p.2 = intDecimal d := by
    intro p hp d hd
    simp only [List.mem_cons, List.not_mem_nil, or_false] at hp
    rcases hp with rfl | rfl
    · rw [show atoi? (['x', ' ', 'y'] : Str) = none from rfl] at hd
      exact absurd hd (by simp)
    · rw [show atoi? (['4', '2'] : Str) = some 42 from rfl] at hd
      obtain rfl : (42 : Int) = d := Option.some.inj hd
      decide
  exact ⟨h1, h2, h3, C1_round_trip_amended _ h1 h2 h3 (fun _ => none)⟩

/-- C3: the quoted-form escaping replaces each occurrence of the characters
backslash, newline, carriage return, double quote, `!`, `$` and backtick by
its two-character escape (backslash-n for newline, backslash-r for carriage
return, backslash followed by the literal character otherwise) and never
double-escapes: the sequential global replacements of the source equal a
single left-to-right pass over the original string escaping each original
special character exactly once. -/
theorem C3_escape_single_pass : ∀ l : Str, doubleQuoteEscape l = singlePassEscape l :=
  doubleQuoteEscape_eq_singlePass

/-- C4: `Marshal` output is the emitted lines sorted lexicographically by
full line content, joined by single newlines with no trailing newline, and
is invariant under permutation of the entries (Go map iteration order):
splitting the output at newlines gives back exactly the entry lines, in
sorted order, and encoding any permutation of the same mapping yields
byte-identical output. -/
theorem C4_sorted_deterministic (m : List (Str × Str))
    (hnl : ∀ p ∈ m, '\n' ∉ p.1) (hm : m ≠ []) :
    (∀ m2, m.Perm m2 → Marshal m2 = Marshal m) ∧
    (splitNL (Marshal m)).Perm (m.map fun p => marshalLine p.1 p.2) ∧
    List.Sorted (· ≤ ·) (splitNL (Marshal m)) ∧
    (Marshal m).getLast? ≠ some '\n' := by
  have hlines : ∀ l ∈ List.insertionSort (· ≤ ·)
      (m.map fun p => marshalLine p.1 p.2), l ≠ [] ∧ '\n' ∉ l := by
    intro l hl
    have hmem : l ∈ m.map fun p => marshalLine p.1 p.2 :=
      (List.perm_insertionSort _ _).subset hl
    obtain ⟨p, hp, rfl⟩ := List.mem_map.mp hmem
    exact ⟨marshalLine_ne_nil p.1 p.2, marshalLine_no_nl p.1 p.2 (hnl p hp)⟩
  have hsne : List.insertionSort (· ≤ ·)
      (m.map fun p => marshalLine p.1 p.2) ≠ [] := by
    intro hcon
    have hps := List.perm_insertionSort (α := Str) (· ≤ ·)
      (m.map fun p => marshalLine p.1 p.2)
    rw [hcon] at hps
    have hmap : (m.map fun p => marshalLine p.1 p.2) = [] := hps.symm.eq_nil
    exact hm (List.map_eq_nil_iff.mp hmap)
  have hsplit : splitNL (Marshal m) =
      List.insertionSort (· ≤ ·) (m.map fun p => marshalLine p.1 p.2) := by
    unfold Marshal
    exact splitNL_joinNL _ hsne (fun l hl => (hlines l hl).2)
  refine ⟨?_, ?_, ?_, ?_⟩
  · intro m2 hp
    unfold Marshal
    congr 1
    apply List.eq_of_perm_of_sorted (r := (· ≤ ·))
    · exact (List.perm_insertionSort _ _).trans
        ((hp.symm.map _).trans (List.perm_insertionSort _ _).symm)
    · exact List.sorted_insertionSort _ _
    · exact List.sorted_insertionSort _ _
  · rw [hsplit]
    exact List.perm_insertionSort _ _
  · rw [hsplit]
    exact List.sorted_insertionSort _ _
  · unfold Marshal
    exact joinNL_getLast _ hlines

/-- Witness for C4 at the concrete mapping `[B = "1", A = "2x"]`. -/
theorem C4_sorted_deterministic_witness :
    (∀ p ∈ ([(['B'], ['1']), (['A'], ['2', 'x'])] : List (Str × Str)), '\n' ∉ p.1) ∧
    ([(['B'], ['1']), (['A'], ['2', 'x'])] : List (Str × Str)) ≠ [] ∧
    ((∀ m2, ([(['B'], ['1']), (['A'], ['2', 'x'])] : List (Str × Str)).Perm m2 →
        Marshal m2 = Marshal [(['B'], ['1']), (['A'], ['2', 'x'])]) ∧
      (splitNL (Marshal [(['B'], ['1']), (['A'], ['2', 'x'])])).Perm
        (([(['B'], ['1']), (['A'], ['2', 'x'])] : List (Str × Str)).map
          fun p => marshalLine p.1 p.2) ∧
      List.Sorted (· ≤ ·) (splitNL (Marshal [(['B'], ['1']), (['A'], ['2', 'x'])])) ∧
      (Marshal [(['B'], ['1']), (['A'], ['2', 'x'])]).getLast? ≠ some '\n') := by
  have h1 : ∀ p ∈ ([(['B'], ['1']), (['A'], ['2', 'x'])] : List (Str × Str)),
      '\n' ∉ p.1 := by decide
  have h2 : ([(['B'], ['1']), (['A'], ['2', 'x'])] : List (Str × Str)) ≠ [] := by
    decide
  exact ⟨h1, h2, C4_sorted_deterministic _ h1 h2⟩

lemma atoiCore_isSome_iff (neg : Bool) (ds : Str) :
    (atoiCore neg ds).isSome = true ↔
      ds ≠ [] ∧ (∀ c ∈ ds, c.isDigit = true) ∧
        digitsVal ds ≤ (if neg = true then 2 ^ 63 else 2 ^ 63 - 1) := by
  unfold atoiCore
  by_cases hA : ds ≠ [] ∧ ds.all Char.isDigit
  · rw [if_pos hA]
    cases neg with
    | true =>
      by_cases hC : digitsVal ds ≤ 2 ^ 63
      · rw [if_pos rfl, if_pos hC]
        exact iff_of_true rfl
          ⟨hA.1, List.all_eq_true.mp hA.2, by rw [if_pos rfl]; exact hC⟩
      · rw [if_pos rfl, if_neg hC]
        refine iff_of_false (by simp) ?_
        intro hh
        refine hC ?_
        have := hh.2.2
        rwa [if_pos rfl] at this
    | false =>
      by_cases hC : digitsVal ds ≤ 2 ^ 63 - 1
      · rw [if_neg (by simp), if_pos hC]
        exact iff_of_true rfl
          ⟨hA.1, List.all_eq_true.mp hA.2, by rw [if_neg (by simp)]; exact hC⟩
      · rw [if_neg (by simp), if_neg hC]
        refine iff_of_false (by simp) ?_
        intro hh
        refine hC ?_
        have := hh.2.2
        rwa [if_neg (by simp)] at this
  · rw [if_neg hA]
    refine iff_of_false (by simp) ?_
    intro hh
    exact hA ⟨hh.1, List.all_eq_true.mpr hh.2.1⟩

lemma atoi?_isSome_iff (v : Str) : (atoi? v).isSome = true ↔ intLike v := by
  cases v with
  | nil =>
    refine iff_of_false (by simp [atoi?]) ?_
    rintro ⟨sgn, ds, _, heq, hne, -⟩
    rcases List.append_eq_nil.mp heq.symm with ⟨-, hds⟩
    exact hne hds
  | cons c r =>
    by_cases hm : c = '-'
    · subst hm
      rw [show atoi? ('-' :: r) = atoiCore true r from by simp [atoi?],
        atoiCore_isSome_iff]
      constructor
      · rintro ⟨h1, h2, h3⟩
        rw [if_pos rfl] at h3
        exact ⟨['-'], r, Or.inr (Or.inl rfl), rfl, h1, h2, by rw [if_pos rfl]; exact h3⟩
      · rintro ⟨sgn, ds, hsgn, heq, hne, hdig, hrange⟩
        rcases hsgn with rfl | rfl | rfl
        · rw [List.nil_append] at heq
          have hmem : ('-' : Char) ∈ ds := by
            rw [← heq]
            exact List.mem_cons_self _ _
          exact absurd (hdig '-' hmem) (by decide)
        · rw [List.cons_append, List.nil_append] at heq
          obtain rfl : r = ds := by
            simp only [List.cons.injEq] at heq
            exact heq.2
          rw [if_pos rfl] at hrange
          exact ⟨hne, hdig, by rw [if_pos rfl]; exact hrange⟩
        · rw [List.cons_append, List.nil_append] at heq
          have hbad : ('-' : Char) = '+' := by
            simp only [List.cons.injEq] at heq
            exact heq.1
          exact absurd hbad (by decide)
    · by_cases hp : c = '+'
      · subst hp
        rw [show atoi? ('+' :: r) = atoiCore false r from by
          simp [atoi?], atoiCore_isSome_iff]
        constructor
        · rintro ⟨h1, h2, h3⟩
          rw [if_neg (by simp)] at h3
          exact ⟨['+'], r, Or.inr (Or.inr rfl), rfl, h1, h2,
            by rw [if_neg (by decide)]; exact h3⟩
        · rintro ⟨sgn, ds, hsgn, heq, hne, hdig, hrange⟩
          rcases hsgn with rfl | rfl | rfl
          · rw [List.nil_append] at heq
            have hmem : ('+' : Char) ∈ ds := by
              rw [← heq]
              exact List.mem_cons_self _ _
            exact absurd (hdig '+' hmem) (by decide)
          · rw [List.cons_append, List.nil_append] at heq
            have hbad : ('+' : Char) = '-' := by
              simp only [List.cons.injEq] at heq
              exact heq.1
            exact absurd hbad (by decide)
          · rw [List.cons_append, List.nil_append] at heq
            obtain rfl : r = ds := by
              simp only [List.cons.injEq] at heq
              exact heq.2
            rw [if_neg (by decide)] at hrange
            exact ⟨hne, hdig, by rw [if_neg (by simp)]; exact hrange⟩
      · rw [show atoi? (c :: r) = atoiCore false (c :: r) from by
          simp [atoi?, hm, hp], atoiCore_isSome_iff]
        constructor
        · rintro ⟨h1, h2, h3⟩
          rw [if_neg (by simp)] at h3
          exact ⟨[], c :: r, Or.inl rfl, rfl, h1, h2,
            by rw [if_neg (by decide)]; exact h3⟩
        · rintro ⟨sgn, ds, hsgn, heq, hne, hdig, hrange⟩
          rcases hsgn with rfl | rfl | rfl
          · rw [List.nil_append] at heq
            subst heq
            rw [if_neg (by decide)] at hrange
            exact ⟨hne, hdig, by rw [if_neg (by simp)]; exact hrange⟩
          · rw [List.cons_append, List.nil_append] at heq
            have hbad : c = '-' := by
              simp only [List.cons.injEq] at heq
              exact heq.1
            exact absurd hbad hm
          · rw [List.cons_append, List.nil_append] at heq
            have hbad : c = '+' := by
              simp only [List.cons.injEq] at heq
              exact heq.1
            exact absurd hbad hp

/-- C2 as stated fails on the code: encoding `{N: "042"}` yields the
unquoted line `N=42` — `strconv.Atoi` accepts `"042"` (no round-trip
check), and `"042"` does not survive parse-then-format. -/
theorem C2_counterexample :
    marshalLine ['N'] ['0', '4', '2'] = ['N', '=', '4', '2'] ∧
    atoi? ['0', '4', '2'] = some 42 ∧
    ¬ intDecimal 42 = ['0', '4', '2'] ∧
    ¬ marshalLine ['N'] ['0', '4', '2'] =
        ['N', '='] ++ dquote :: (['0', '4', '2'] ++ [dquote]) :=
  ⟨rfl, rfl, by decide, by decide⟩

/-- C2 (amended): `Marshal` emits `k=<integer>` unquoted exactly when
`strconv.Atoi` accepts the value — an optional sign followed by decimal
digits within the signed 64-bit range (`intLike`), with no round-trip
requirement — and the emitted integer is the reparsed value, so leading
zeros and a leading plus are canonicalized; otherwise it emits the escaped
double-quoted form.  In particular both `{N: "42"}` and `{N: "042"}`
produce the unquoted line `N=42`. -/
theorem C2_numeric_fast_path (k v : Str) :
    ((∃ d : Int, marshalLine k v = k ++ '=' :: intDecimal d) ↔ intLike v) ∧
    (∀ d : Int, atoi? v = some d → marshalLine k v = k ++ '=' :: intDecimal d) ∧
    (atoi? v = none →
      marshalLine k v = k ++ '=' :: dquote :: (doubleQuoteEscape v ++ [dquote])) ∧
    marshalLine ['N'] ['4', '2'] = ['N', '=', '4', '2'] ∧
    marshalLine ['N'] ['0', '4', '2'] = ['N', '=', '4', '2'] := by
  refine ⟨?_, ?_, ?_, rfl, rfl⟩
  · constructor
    · rintro ⟨d, hd⟩
      rw [← atoi?_isSome_iff]
      cases hav : atoi? v with
      | some d0 => rfl
      | none =>
        exfalso
        unfold marshalLine at hd
        rw [hav] at hd
        have hd2 : ('=' :: dquote :: (doubleQuoteEscape v ++ [dquote]) : Str) =
            '=' :: intDecimal d := List.append_cancel_left hd
        have hd3 : (dquote :: (doubleQuoteEscape v ++ [dquote]) : Str) =
            intDecimal d := by
          injection hd2
        obtain ⟨i0, itl, hieq⟩ : ∃ i0 itl, intDecimal d = i0 :: itl := by
          cases hii : intDecimal d with
          | nil => exact absurd hii (intDecimal_ne_nil d)
          | cons a b => exact ⟨a, b, rfl⟩
        rw [hieq] at hd3
        have hhd : dquote = i0 := by injection hd3
        exact (intDecimal_props d i0 (by rw [hieq]; exact List.mem_cons_self _ _)).2.2.2.1
          hhd.symm
    · intro h
      have hsome : (atoi? v).isSome = true := (atoi?_isSome_iff v).mpr h
      cases hav : atoi? v with
      | none => rw [hav] at hsome; simp at hsome
      | some d =>
        refine ⟨d, ?_⟩
        unfold marshalLine
        rw [hav]
  · intro d hd
    unfold marshalLine
    rw [hd]
  · intro hd
    unfold marshalLine
    rw [hd]

/-- Witness for C2 (amended) at `k = N`, `v = "042"`: the value is
`intLike`, and the emitted line is indeed the unquoted reparsed integer. -/
theorem C2_numeric_fast_path_witness :
    intLike ['0', '4', '2'] ∧
    (∃ d : Int, marshalLine ['N'] ['0', '4', '2'] = ['N'] ++ '=' :: intDecimal d) := by
  have hil : intLike ['0', '4', '2'] :=
    ⟨[], ['0', '4', '2'], Or.inl rfl, rfl, by simp, by decide, by decide⟩
  exact ⟨hil, ((C2_numeric_fast_path ['N'] ['0', '4', '2']).1).mpr hil⟩

/-! ## Environment lemmas -/
lemma lookupA_mapReplace (k v key : Str) (env : Env) :
    lookupA (env.map (fun p => if p.1 = k then (k, v) else p)) key =
      if key = k then (lookupA env k).map (fun _ => v) else lookupA env key := by
  induction env with
  | nil => by_cases h : key = k <;> simp [lookupA, h]
  | cons p rest ih =>
    by_cases hp : p.1 = k
    · by_cases hk2 : key = k
      · subst hk2
        simp [lookupA, List.map_cons, hp, ih]
      · have hne : ¬ k = key := fun hh => hk2 hh.symm
        have hne2 : ¬ p.1 = key := by rw [hp]; exact hne
        simp only [List.map_cons, if_pos hp, lookupA, if_neg hne, if_neg hne2, ih,
          if_neg hk2]
    · by_cases hk2 : key = k
      · subst hk2
        have hne : ¬ p.1 = key := hp
        simp only [List.map_cons, if_neg hp, lookupA, if_neg hne, ih, if_pos rfl]
      · by_cases hpk : p.1 = key
        · simp only [List.map_cons, if_neg hp, lookupA, if_pos hpk, if_neg hk2]
        · simp only [List.map_cons, if_neg hp, lookupA, if_neg hpk, ih, if_neg hk2]

lemma lookupA_setEnv (k v key : Str) (env : Env) :
    lookupA (setEnv k v env) key = if key = k then some v else lookupA env key := by
  unfold setEnv
  by_cases hs : (lookupA env k).isSome
  · rw [if_pos hs, lookupA_mapReplace]
    by_cases hk2 : key = k
    · obtain ⟨w, hw⟩ := Option.isSome_iff_exists.mp hs
      simp [hk2, hw]
    · simp [hk2]
  · rw [if_neg hs, lookupA_append]
    have hn : lookupA env k = none := Option.not_isSome_iff_eq_none.mp hs
    by_cases hk2 : key = k
    · subst hk2
      simp [hn, lookupA]
    · have hne : ¬ k = key := fun hh => hk2 hh.symm
      rw [if_neg hk2]
      cases he : lookupA env key
      · simp [lookupA, hne]
      · rfl

lemma applyEntries_lookup (pres : List Str) (ov : Bool) :
    ∀ (l : List (Str × Str)) (env : Env) (key : Str),
      (l.map Prod.fst).Nodup →
      lookupA (applyEntries pres ov l env) key =
        match lookupA l key with
        | some v => if key ∈ pres ∧ ov = false then lookupA env key else some v
        | none => lookupA env key := by
  intro l
  induction l with
  | nil =>
    intro env key _
    simp [applyEntries, lookupA]
  | cons p rest ih =>
    intro env key hnodup
    simp only [List.map_cons, List.nodup_cons] at hnodup
    simp only [applyEntries]
    rw [ih _ key hnodup.2]
    by_cases hkey : p.1 = key
    · have hnone : lookupA rest key = none := by
        apply lookupA_none_of_not_mem
        rw [← hkey]
        exact hnodup.1
      subst hkey
      rw [hnone]
      have hrhs : lookupA (p :: rest) p.1 = some p.2 := by simp [lookupA]
      rw [hrhs]
      show lookupA
          (if !(decide (p.1 ∈ pres)) || ov then setEnv p.1 p.2 env else env) p.1 =
        if p.1 ∈ pres ∧ ov = false then lookupA env p.1 else some p.2
      by_cases hpres : p.1 ∈ pres
      · cases ov with
        | true =>
          rw [if_pos (show (!(decide (p.1 ∈ pres)) || true) = true by simp),
            lookupA_setEnv, if_pos rfl,
            if_neg (show ¬ (p.1 ∈ pres ∧ true = false) from fun hh => by simp at hh)]
        | false =>
          rw [if_neg (show ¬ ((!(decide (p.1 ∈ pres)) || false) = true) by
              simp [hpres]),
            if_pos ⟨hpres, rfl⟩]
      · cases ov with
        | true =>
          rw [if_pos (show (!(decide (p.1 ∈ pres)) || true) = true by simp),
            lookupA_setEnv, if_pos rfl,
            if_neg (show ¬ (p.1 ∈ pres ∧ true = false) from fun hh => by simp at hh)]
        | false =>
          rw [if_pos (show (!(decide (p.1 ∈ pres)) || false) = true by simp [hpres]),
            lookupA_setEnv, if_pos rfl,
            if_neg (show ¬ (p.1 ∈ pres ∧ false = false) from fun hh => hpres hh.1)]
    · have hlk : lookupA (p :: rest) key = lookupA rest key := by
        simp [lookupA, hkey]
      have henv : lookupA
          (if !(decide (p.1 ∈ pres)) || ov then setEnv p.1 p.2 env else env) key =
          lookupA env key := by
        by_cases hc : (!(decide (p.1 ∈ pres)) || ov) = true
        · rw [if_pos hc, lookupA_setEnv, if_neg (fun hh => hkey hh.symm)]
        · rw [if_neg hc]
      rw [henv, hlk]

lemma presentKeys_eq (env : Env) :
    presentKeys env = env.map (fun p => p.1.takeWhile (fun c => !(c == '='))) := by
  unfold presentKeys environ
  rw [List.map_map]
  apply List.map_congr_left
  intro p _
  exact takeWhile_append_stop _ _ _ _ (by decide)

lemma mem_presentKeys (env : Env) (k : Str) (hk : ∀ c ∈ k, ¬ c = '=')
    (v : Str) (h : lookupA env k = some v) : k ∈ presentKeys env := by
  rw [presentKeys_eq]
  refine List.mem_map.mpr ⟨(k, v), lookupA_mem env k v h, ?_⟩
  exact takeWhile_all _ _ (fun c hc => by simp [hk c hc])

/-! ## Multi-file processing helpers -/
lemma except_cases {ε α : Type} (x : Except ε α) :
    (∃ e, x = .error e) ∨ (∃ y, x = .ok y) := by
  cases x with
  | error e => exact Or.inl ⟨e, rfl⟩
  | ok y => exact Or.inr ⟨y, rfl⟩

lemma loadFromAux_eq_fromAux (fs : FSys) (strict : Bool) :
    ∀ (files : List Str) (loaded : Bool) (env : Env),
      loadFromAux fs strict files loaded env = fromAux fs false strict files loaded env := by
  intro files
  induction files with
  | nil => intro loaded env; rfl
  | cons f rest ih =>
    intro loaded env
    simp only [loadFromAux, fromAux]
    cases loadFile fs f false env with
    | error e =>
      by_cases hs : strict = true
      · simp [hs]
      · have hsf : strict = false := by
          cases strict
          · rfl
          · exact absurd rfl hs
        subst hsf
        simp [ih]
    | ok env2 => exact ih true env2

lemma overloadFromAux_eq_fromAux (fs : FSys) (strict : Bool) :
    ∀ (files : List Str) (loaded : Bool) (env : Env),
      overloadFromAux fs strict files loaded env =
        fromAux fs true strict files loaded env := by
  intro files
  induction files with
  | nil => intro loaded env; rfl
  | cons f rest ih =>
    intro loaded env
    simp only [overloadFromAux, fromAux]
    cases loadFile fs f true env with
    | error e =>
      by_cases hs : strict = true
      · simp [hs]
      · have hsf : strict = false := by
          cases strict
          · rfl
          · exact absurd rfl hs
        subst hsf
        simp [ih]
    | ok env2 => exact ih true env2

lemma fromAux_nonstrict (fs : FSys) (ov : Bool) :
    ∀ (files : List Str) (loaded : Bool) (env : Env),
      fromAux fs ov false files loaded env =
        (loadSeq fs ov files env,
          if loaded || anyOkL fs ov files env then none
          else some .noEnvFileLoaded) := by
  intro files
  induction files with
  | nil =>
    intro loaded env
    simp [fromAux, loadSeq, anyOkL]
  | cons f rest ih =>
    intro loaded env
    rcases except_cases (loadFile fs f ov env) with ⟨e, hg⟩ | ⟨env2, hg⟩ <;>
      simp only [fromAux, loadSeq, anyOkL, hg] <;> simp [ih]

lemma fromAux_strict_firstFail (fs : FSys) (ov : Bool) :
    ∀ (pre : List Str) (f : Str) (post : List Str) (env : Env) (loaded : Bool)
      (e : GoErr),
      okSeq fs ov pre env = true →
      loadFile fs f ov (loadSeq fs ov pre env) = .error e →
      fromAux fs ov true (pre ++ f :: post) loaded env =
        (loadSeq fs ov pre env, some e) := by
  intro pre
  induction pre with
  | nil =>
    intro f post env loaded e _ hfail
    simp only [List.nil_append, fromAux, loadSeq] at hfail ⊢
    rw [hfail]
    simp
  | cons g pre2 ih =>
    intro f post env loaded e hok hfail
    simp only [okSeq] at hok
    simp only [loadSeq] at hfail ⊢
    simp only [List.cons_append, fromAux]
    rcases except_cases (loadFile fs g ov env) with ⟨e2, hg⟩ | ⟨env2, hg⟩
    · rw [hg] at hok
      simp at hok
    · rw [hg] at hok hfail ⊢
      exact ih f post env2 true e hok hfail

lemma readFromAux_nonstrict (fs : FSys) (outer : Str → Option Str) :
    ∀ (files : List Str) (loaded : Bool) (acc : List (Str × Str)),
      readFromAux fs outer false files loaded acc =
        (readSeq fs outer files acc,
          if loaded || anyOkR fs outer files then none
          else some .noEnvFileLoaded) := by
  intro files
  induction files with
  | nil =>
    intro loaded acc
    simp [readFromAux, readSeq, anyOkR]
  | cons f rest ih =>
    intro loaded acc
    rcases except_cases (readFile fs outer f) with ⟨e, hg⟩ | ⟨m, hg⟩ <;>
      simp only [readFromAux, readSeq, anyOkR, hg] <;> simp [ih]

lemma readFromAux_strict_firstFail (fs : FSys) (outer : Str → Option Str) :
    ∀ (pre : List Str) (f : Str) (post : List Str) (loaded : Bool)
      (acc : List (Str × Str)) (e : GoErr),
      okSeqR fs outer pre = true →
      readFile fs outer f = .error e →
      readFromAux fs outer true (pre ++ f :: post) loaded acc =
        (readSeq fs outer pre acc, some e) := by
  intro pre
  induction pre with
  | nil =>
    intro f post loaded acc e _ hfail
    simp only [List.nil_append, readFromAux, readSeq]
    rw [hfail]
    simp
  | cons g pre2 ih =>
    intro f post loaded acc e hok hfail
    simp only [okSeqR] at hok
    simp only [readSeq, List.cons_append, readFromAux]
    rcases except_cases (readFile fs outer g) with ⟨e2, hg⟩ | ⟨m, hg⟩
    · rw [hg] at hok
      simp at hok
    · rw [hg] at hok ⊢
      exact ih f post true (mergeInto acc m) e hok hfail

lemma option_cases {α : Type} (x : Option α) : x = none ∨ ∃ y, x = some y := by
  cases x with
  | none => exact Or.inl rfl
  | some y => exact Or.inr ⟨y, rfl⟩

lemma loadFrom_single (fs : FSys) (strict : Bool) (f : Str) (env : Env)
    (m : List (Str × Str)) (hread : readFile fs (envOuter env) f = .ok m) :
    LoadFrom fs strict [f] env = (applyMap m false env, none) := by
  have hload : loadFile fs f false env = .ok (applyMap m false env) := by
    unfold loadFile
    rw [hread]
  show loadFromAux fs strict [f] false env = _
  simp only [loadFromAux, hload]
  simp

lemma overloadFrom_single (fs : FSys) (strict : Bool) (f : Str) (env : Env)
    (m : List (Str × Str)) (hread : readFile fs (envOuter env) f = .ok m) :
    OverloadFrom fs strict [f] env = (applyMap m true env, none) := by
  have hload : loadFile fs f true env = .ok (applyMap m true env) := by
    unfold loadFile
    rw [hread]
  show overloadFromAux fs strict [f] false env = _
  simp only [overloadFromAux, hload]
  simp

lemma loadFrom_two (fs : FSys) (strict : Bool) (f1 f2 : Str) (env : Env)
    (m1 m2 : List (Str × Str))
    (h1 : readFile fs (envOuter env) f1 = .ok m1)
    (h2 : readFile fs (envOuter (applyMap m1 false env)) f2 = .ok m2) :
    LoadFrom fs strict [f1, f2] env =
      (applyMap m2 false (applyMap m1 false env), none) := by
  have hl1 : loadFile fs f1 false env = .ok (applyMap m1 false env) := by
    unfold loadFile
    rw [h1]
  have hl2 : loadFile fs f2 false (applyMap m1 false env) =
      .ok (applyMap m2 false (applyMap m1 false env)) := by
    unfold loadFile
    rw [h2]
  show loadFromAux fs strict [f1, f2] false env = _
  simp only [loadFromAux, hl1, hl2]
  simp

lemma overloadFrom_two (fs : FSys) (strict : Bool) (f1 f2 : Str) (env : Env)
    (m1 m2 : List (Str × Str))
    (h1 : readFile fs (envOuter env) f1 = .ok m1)
    (h2 : readFile fs (envOuter (applyMap m1 true env)) f2 = .ok m2) :
    OverloadFrom fs strict [f1, f2] env =
      (applyMap m2 true (applyMap m1 true env), none) := by
  have hl1 : loadFile fs f1 true env = .ok (applyMap m1 true env) := by
    unfold loadFile
    rw [h1]
  have hl2 : loadFile fs f2 true (applyMap m1 true env) =
      .ok (applyMap m2 true (applyMap m1 true env)) := by
    unfold loadFile
    rw [h2]
  show overloadFromAux fs strict [f1, f2] false env = _
  simp only [overloadFromAux, hl1, hl2]
  simp

lemma readFrom_two (fs : FSys) (outer : Str → Option Str) (strict : Bool)
    (f1 f2 : Str) (m1 m2 : List (Str × Str))
    (h1 : readFile fs outer f1 = .ok m1) (h2 : readFile fs outer f2 = .ok m2) :
    ReadFrom fs outer strict [f1, f2] = (mergeInto (mergeInto [] m1) m2, none) := by
  show readFromAux fs outer strict [f1, f2] false [] = _
  simp only [readFromAux, h1, h2]
  simp

lemma filenamesOrDefault_of_ne_nil (files : List Str) (h : files ≠ []) :
    filenamesOrDefault files = files := by
  cases files with
  | nil => exact absurd rfl h
  | cons a b => rfl

/-- C5: with key `X` already present in the environment (value `old`) and a
file whose decoded map binds `X` to `new`, Load leaves `X = old` (it only
sets keys absent from the environment) while Overload sets `X = new`. -/
theorem C5_load_vs_overload (fs : FSys) (f : Str) (env : Env) (k old vnew : Str)
    (m : List (Str × Str))
    (hlookup : lookupA env k = some old)
    (hkeq : ∀ c ∈ k, ¬ c = '=')
    (hread : readFile fs (envOuter env) f = .ok m)
    (hnodup : (m.map Prod.fst).Nodup)
    (hm : lookupA m k = some vnew) (strict : Bool) :
    lookupA (LoadFrom fs strict [f] env).1 k = some old ∧
    lookupA (OverloadFrom fs strict [f] env).1 k = some vnew := by
  have hkpres : k ∈ presentKeys env := mem_presentKeys env k hkeq old hlookup
  constructor
  · rw [loadFrom_single fs strict f env m hread]
    show lookupA (applyEntries (presentKeys env) false m env) k = some old
    rw [applyEntries_lookup _ _ m env k hnodup, hm]
    show (if k ∈ presentKeys env ∧ false = false then lookupA env k
      else some vnew) = some old
    rw [if_pos ⟨hkpres, rfl⟩, hlookup]
  · rw [overloadFrom_single fs strict f env m hread]
    show lookupA (applyEntries (presentKeys env) true m env) k = some vnew
    rw [applyEntries_lookup _ _ m env k hnodup, hm]
    show (if k ∈ presentKeys env ∧ true = false then lookupA env k
      else some vnew) = some vnew
    rw [if_neg (fun hh => absurd hh.2 (by decide))]

/-- Witness for C5: environment `X = old`, file content `X=new`. -/
theorem C5_load_vs_overload_witness :
    lookupA ([(['X'], ['o', 'l', 'd'])] : Env) ['X'] = some ['o', 'l', 'd'] ∧
    readFile (fun _ => some ['X', '=', 'n', 'e', 'w'])
      (envOuter [(['X'], ['o', 'l', 'd'])]) ['f'] = .ok [(['X'], ['n', 'e', 'w'])] ∧
    lookupA (LoadFrom (fun _ => some ['X', '=', 'n', 'e', 'w']) false [['f']]
      [(['X'], ['o', 'l', 'd'])]).1 ['X'] = some ['o', 'l', 'd'] ∧
    lookupA (OverloadFrom (fun _ => some ['X', '=', 'n', 'e', 'w']) false [['f']]
      [(['X'], ['o', 'l', 'd'])]).1 ['X'] = some ['n', 'e', 'w'] := by
  have hread : readFile (fun _ => some ['X', '=', 'n', 'e', 'w'])
      (envOuter [(['X'], ['o', 'l', 'd'])]) ['f'] =
      .ok [(['X'], ['n', 'e', 'w'])] := rfl
  have hc := C5_load_vs_overload (fun _ => some ['X', '=', 'n', 'e', 'w']) ['f']
    [(['X'], ['o', 'l', 'd'])] ['X'] ['o', 'l', 'd'] ['n', 'e', 'w']
    [(['X'], ['n', 'e', 'w'])] rfl (by decide) hread (by decide) rfl false
  exact ⟨rfl, hread, hc.1, hc.2⟩

/-- C10: the presence check of `loadFile` depends only on the key names in
the environment (each raw `KEY=VALUE` line split at its first `=`), never
on the values; in particular a variable present with the empty-string value
counts as present, so Load will not overwrite it. -/
theorem C10_presence_by_name :
    (∀ env1 env2 : Env, env1.map Prod.fst = env2.map Prod.fst →
      presentKeys env1 = presentKeys env2) ∧
    (∀ (fs : FSys) (f : Str) (env : Env) (k : Str) (m : List (Str × Str))
      (strict : Bool),
      lookupA env k = some [] → (∀ c ∈ k, ¬ c = '=') →
      readFile fs (envOuter env) f = .ok m → (m.map Prod.fst).Nodup →
      lookupA (LoadFrom fs strict [f] env).1 k = some []) := by
  constructor
  · intro env1 env2 h
    have e1 : ∀ env : Env,
        env.map (fun p => p.1.takeWhile (fun c => !(c == '='))) =
          (env.map Prod.fst).map (fun k => k.takeWhile (fun c => !(c == '='))) := by
      intro env
      rw [List.map_map]
      rfl
    rw [presentKeys_eq, presentKeys_eq, e1, e1, h]
  · intro fs f env k m strict hlookup hkeq hread hnodup
    have hkpres : k ∈ presentKeys env := mem_presentKeys env k hkeq [] hlookup
    rw [loadFrom_single fs strict f env m hread]
    show lookupA (applyEntries (presentKeys env) false m env) k = some []
    rw [applyEntries_lookup _ _ m env k hnodup]
    rcases option_cases (lookupA m k) with hmk | ⟨w, hmk⟩
    · rw [hmk]
      exact hlookup
    · rw [hmk]
      show (if k ∈ presentKeys env ∧ false = false then lookupA env k
        else some w) = some []
      rw [if_pos ⟨hkpres, rfl⟩, hlookup]

/-- Witness for C10: `X` present with the empty value, file sets `X=zz`;
after Load the value is still empty.  The presence-set part is exercised on
two environments with equal key lists and different values. -/
theorem C10_presence_by_name_witness :
    presentKeys [(['X'], ['1'])] = presentKeys [(['X'], ['2', '2'])] ∧
    lookupA ([(['X'], [])] : Env) ['X'] = some [] ∧
    lookupA (LoadFrom (fun _ => some ['X', '=', 'z', 'z']) false [['f']]
      [(['X'], [])]).1 ['X'] = some [] := by
  refine ⟨C10_presence_by_name.1 [(['X'], ['1'])] [(['X'], ['2', '2'])] rfl, rfl, ?_⟩
  exact C10_presence_by_name.2 (fun _ => some ['X', '=', 'z', 'z']) ['f']
    [(['X'], [])] ['X'] [(['X'], ['z', 'z'])] false rfl (by decide) rfl (by decide)

/-- C6 as stated fails on the code for Load: with no prior environment,
file `f1` setting `X=a` and file `f2` setting `X=b`, `Load` on the two
files yields `X = a` — the earlier file wins, because `f1`'s entries are
written into the environment before `f2`'s presence check runs. -/
theorem C6_counterexample :
    lookupA (LoadFrom (fun f => if f = ['f', '1'] then some ['X', '=', 'a']
        else some ['X', '=', 'b']) false [['f', '1'], ['f', '2']] []).1 ['X'] =
      some ['a'] ∧
    ¬ lookupA (LoadFrom (fun f => if f = ['f', '1'] then some ['X', '=', 'a']
        else some ['X', '=', 'b']) false [['f', '1'], ['f', '2']] []).1 ['X'] =
      some ['b'] :=
  ⟨rfl, by decide⟩

/-- C6 (amended): when two files define the same key, the later file
overrides the earlier one for the map returned by Read and for the
environment produced by Overload; for Load the EARLIER file wins — its
value is already in the environment when the later file's presence check
runs, so Load never overrides it. -/
theorem C6_later_file_override (fs : FSys) (outer : Str → Option Str) (env : Env)
    (f1 f2 k v1 v2 : Str) (m1 m2 : List (Str × Str))
    (h1 : ∀ o : Str → Option Str, readFile fs o f1 = .ok m1)
    (h2 : ∀ o : Str → Option Str, readFile fs o f2 = .ok m2)
    (hn1 : (m1.map Prod.fst).Nodup) (hn2 : (m2.map Prod.fst).Nodup)
    (hv1 : lookupA m1 k = some v1) (hv2 : lookupA m2 k = some v2)
    (hkeq : ∀ c ∈ k, ¬ c = '=') (habs : k ∉ presentKeys env) (strict : Bool) :
    lookupA (ReadFrom fs outer strict [f1, f2]).1 k = some v2 ∧
    lookupA (OverloadFrom fs strict [f1, f2] env).1 k = some v2 ∧
    lookupA (LoadFrom fs strict [f1, f2] env).1 k = some v1 := by
  refine ⟨?_, ?_, ?_⟩
  · rw [readFrom_two fs outer strict f1 f2 m1 m2 (h1 outer) (h2 outer)]
    show lookupA (m2.foldl (fun a p => upsert a p.1 p.2) (mergeInto [] m1)) k =
      some v2
    rw [foldl_upsert_lookup m2 _ k hn2, hv2]
  · rw [overloadFrom_two fs strict f1 f2 env m1 m2 (h1 _) (h2 _)]
    show lookupA (applyEntries (presentKeys (applyMap m1 true env)) true m2
      (applyMap m1 true env)) k = some v2
    rw [applyEntries_lookup _ _ m2 _ k hn2, hv2]
    show (if k ∈ presentKeys (applyMap m1 true env) ∧ true = false then
      lookupA (applyMap m1 true env) k else some v2) = some v2
    rw [if_neg (fun hh => absurd hh.2 (by decide))]
  · rw [loadFrom_two fs strict f1 f2 env m1 m2 (h1 _) (h2 _)]
    have henv1 : lookupA (applyMap m1 false env) k = some v1 := by
      show lookupA (applyEntries (presentKeys env) false m1 env) k = some v1
      rw [applyEntries_lookup _ _ m1 env k hn1, hv1]
      show (if k ∈ presentKeys env ∧ false = false then lookupA env k
        else some v1) = some v1
      rw [if_neg (fun hh => habs hh.1)]
    have hpres1 : k ∈ presentKeys (applyMap m1 false env) :=
      mem_presentKeys _ k hkeq v1 henv1
    show lookupA (applyEntries (presentKeys (applyMap m1 false env)) false m2
      (applyMap m1 false env)) k = some v1
    rw [applyEntries_lookup _ _ m2 _ k hn2, hv2]
    show (if k ∈ presentKeys (applyMap m1 false env) ∧ false = false then
      lookupA (applyMap m1 false env) k else some v2) = some v1
    rw [if_pos ⟨hpres1, rfl⟩, henv1]

/-- Witness for C6 (amended): `f1` sets `X=a`, `f2` sets `X=b`, empty
starting environment. -/
theorem C6_later_file_override_witness :
    lookupA (ReadFrom (fun f => if f = ['f', '1'] then some ['X', '=', 'a']
      else some ['X', '=', 'b']) (fun _ => none) false
      [['f', '1'], ['f', '2']]).1 ['X'] = some ['b'] ∧
    lookupA (OverloadFrom (fun f => if f = ['f', '1'] then some ['X', '=', 'a']
      else some ['X', '=', 'b']) false [['f', '1'], ['f', '2']] []).1 ['X'] =
      some ['b'] ∧
    lookupA (LoadFrom (fun f => if f = ['f', '1'] then some ['X', '=', 'a']
      else some ['X', '=', 'b']) false [['f', '1'], ['f', '2']] []).1 ['X'] =
      some ['a'] := by
  have h1 : ∀ o : Str → Option Str,
      readFile (fun f => if f = ['f', '1'] then some ['X', '=', 'a']
        else some ['X', '=', 'b']) o ['f', '1'] = .ok [(['X'], ['a'])] := by
    intro o
    rfl
  have h2 : ∀ o : Str → Option Str,
      readFile (fun f => if f = ['f', '1'] then some ['X', '=', 'a']
        else some ['X', '=', 'b']) o ['f', '2'] = .ok [(['X'], ['b'])] := by
    intro o
    rfl
  exact C6_later_file_override _ (fun _ => none) [] ['f', '1'] ['f', '2'] ['X']
    ['a'] ['b'] [(['X'], ['a'])] [(['X'], ['b'])] h1 h2 (by decide) (by decide)
    rfl rfl (by decide) (by decide) false

/-- C7: in strict mode the multi-file operations return the first failing
file's error and process no further files (the result does not depend on
the files after the failure); in non-strict mode the operation succeeds
exactly when some file loads, and otherwise returns the
no-env-file-loaded error. -/
theorem C7_strict_abort_nonstrict_skip :
    (∀ (fs : FSys) (pre : List Str) (f : Str) (post : List Str) (env : Env)
      (e : GoErr),
      okSeq fs false pre env = true →
      loadFile fs f false (loadSeq fs false pre env) = .error e →
      LoadFrom fs true (pre ++ f :: post) env = (loadSeq fs false pre env, some e) ∧
      LoadFrom fs true (pre ++ f :: post) env = LoadFrom fs true (pre ++ [f]) env) ∧
    (∀ (fs : FSys) (pre : List Str) (f : Str) (post : List Str) (env : Env)
      (e : GoErr),
      okSeq fs true pre env = true →
      loadFile fs f true (loadSeq fs true pre env) = .error e →
      OverloadFrom fs true (pre ++ f :: post) env =
        (loadSeq fs true pre env, some e) ∧
      OverloadFrom fs true (pre ++ f :: post) env =
        OverloadFrom fs true (pre ++ [f]) env) ∧
    (∀ (fs : FSys) (outer : Str → Option Str) (pre : List Str) (f : Str)
      (post : List Str) (e : GoErr),
      okSeqR fs outer pre = true →
      readFile fs outer f = .error e →
      ReadFrom fs outer true (pre ++ f :: post) = (readSeq fs outer pre [], some e) ∧
      ReadFrom fs outer true (pre ++ f :: post) =
        ReadFrom fs outer true (pre ++ [f])) ∧
    (∀ (fs : FSys) (files : List Str) (env : Env),
      (LoadFrom fs false files env).2 =
        if anyOkL fs false (filenamesOrDefault files) env = true then none
        else some GoErr.noEnvFileLoaded) ∧
    (∀ (fs : FSys) (files : List Str) (env : Env),
      (OverloadFrom fs false files env).2 =
        if anyOkL fs true (filenamesOrDefault files) env = true then none
        else some GoErr.noEnvFileLoaded) ∧
    (∀ (fs : FSys) (outer : Str → Option Str) (files : List Str),
      (ReadFrom fs outer false files).2 =
        if anyOkR fs outer (filenamesOrDefault files) = true then none
        else some GoErr.noEnvFileLoaded) := by
  have hfodL : ∀ (pre : List Str) (f : Str) (post : List Str),
      filenamesOrDefault (pre ++ f :: post) = pre ++ f :: post := by
    intro pre f post
    exact filenamesOrDefault_of_ne_nil _ (by simp)
  refine ⟨?_, ?_, ?_, ?_, ?_, ?_⟩
  · intro fs pre f post env e hok hfail
    have hmain : ∀ post2 : List Str,
        LoadFrom fs true (pre ++ f :: post2) env =
          (loadSeq fs false pre env, some e) := by
      intro post2
      show loadFromAux fs true (filenamesOrDefault (pre ++ f :: post2)) false env = _
      rw [hfodL, loadFromAux_eq_fromAux]
      exact fromAux_strict_firstFail fs false pre f post2 env false e hok hfail
    exact ⟨hmain post, (hmain post).trans (hmain []).symm⟩
  · intro fs pre f post env e hok hfail
    have hmain : ∀ post2 : List Str,
        OverloadFrom fs true (pre ++ f :: post2) env =
          (loadSeq fs true pre env, some e) := by
      intro post2
      show overloadFromAux fs true (filenamesOrDefault (pre ++ f :: post2)) false env = _
      rw [hfodL, overloadFromAux_eq_fromAux]
      exact fromAux_strict_firstFail fs true pre f post2 env false e hok hfail
    exact ⟨hmain post, (hmain post).trans (hmain []).symm⟩
  · intro fs outer pre f post e hok hfail
    have hmain : ∀ post2 : List Str,
        ReadFrom fs outer true (pre ++ f :: post2) =
          (readSeq fs outer pre [], some e) := by
      intro post2
      show readFromAux fs outer true (filenamesOrDefault (pre ++ f :: post2))
        false [] = _
      rw [hfodL]
      exact readFromAux_strict_firstFail fs outer pre f post2 false [] e hok hfail
    exact ⟨hmain post, (hmain post).trans (hmain []).symm⟩
  · intro fs files env
    show (loadFromAux fs false (filenamesOrDefault files) false env).2 = _
    rw [loadFromAux_eq_fromAux, fromAux_nonstrict]
    simp
  · intro fs files env
    show (overloadFromAux fs false (filenamesOrDefault files) false env).2 = _
    rw [overloadFromAux_eq_fromAux, fromAux_nonstrict]
    simp
  · intro fs outer files
    show (readFromAux fs outer false (filenamesOrDefault files) false []).2 = _
    rw [readFromAux_nonstrict]
    simp

/-- Witness for C7: file `f1` decodes to `A=1`, file `f2` fails to open,
file `f3` decodes to `B=2`; the strict batch `[f1, f2, f3]` stops at `f2`
with its I/O error keeping `f1`'s effect, and a non-strict all-failing
batch returns the no-env-file-loaded error. -/
theorem C7_strict_abort_nonstrict_skip_witness :
    (LoadFrom (fun f => if f = ['f', '1'] then some ['A', '=', '1']
        else if f = ['f', '3'] then some ['B', '=', '2'] else none) true
        [['f', '1'], ['f', '2'], ['f', '3']] [] =
      (loadSeq (fun f => if f = ['f', '1'] then some ['A', '=', '1']
        else if f = ['f', '3'] then some ['B', '=', '2'] else none) false
        [['f', '1']] [], some GoErr.ioError)) ∧
    (LoadFrom (fun _ => (none : Option Str)) false [['f', '2']] []).2 =
      some GoErr.noEnvFileLoaded := by
  constructor
  · exact (C7_strict_abort_nonstrict_skip.1
      (fun f => if f = ['f', '1'] then some ['A', '=', '1']
        else if f = ['f', '3'] then some ['B', '=', '2'] else none)
      [['f', '1']] ['f', '2'] [['f', '3']] [] GoErr.ioError rfl rfl).1
  · exact (C7_strict_abort_nonstrict_skip.2.2.2.1
      (fun _ => (none : Option Str)) [['f', '2']] []).trans rfl

/-- C8: a file whose read or decode fails contributes zero changes to the
environment: `loadFile` returns the error before any mutation, the
`LoadFrom` / `OverloadFrom` loops keep the environment unchanged at a
failing file (aborting with it in strict mode, skipping it otherwise), and
the failing file is the identity for the applied-files fold. -/
theorem C8_failing_file_no_mutation (fs : FSys) (f : Str) (env : Env) (e : GoErr)
    (hfail : readFile fs (envOuter env) f = .error e) :
    (∀ ov, loadFile fs f ov env = .error e) ∧
    (∀ strict rest loaded, loadFromAux fs strict (f :: rest) loaded env =
      if strict = true then (env, some e)
      else loadFromAux fs strict rest loaded env) ∧
    (∀ strict rest loaded, overloadFromAux fs strict (f :: rest) loaded env =
      if strict = true then (env, some e)
      else overloadFromAux fs strict rest loaded env) ∧
    (∀ ov rest, loadSeq fs ov (f :: rest) env = loadSeq fs ov rest env) := by
  have hl : ∀ ov, loadFile fs f ov env = .error e := by
    intro ov
    unfold loadFile
    rw [hfail]
  refine ⟨hl, ?_, ?_, ?_⟩
  · intro strict rest loaded
    simp only [loadFromAux, hl false]
  · intro strict rest loaded
    simp only [overloadFromAux, hl true]
  · intro ov rest
    simp only [loadSeq, hl ov]

/-- Witness for C8: a file system where every open fails. -/
theorem C8_failing_file_no_mutation_witness :
    readFile (fun _ => (none : Option Str)) (envOuter [(['A'], ['1'])]) ['f'] =
      .error GoErr.ioError ∧
    loadFile (fun _ => (none : Option Str)) ['f'] false [(['A'], ['1'])] =
      .error GoErr.ioError ∧
    loadFromAux (fun _ => (none : Option Str)) true [['f']] false [(['A'], ['1'])] =
      ((if (true : Bool) = true then ([(['A'], ['1'])], some GoErr.ioError)
        else loadFromAux (fun _ => (none : Option Str)) true [] false
          [(['A'], ['1'])])) := by
  have hc := C8_failing_file_no_mutation (fun _ => (none : Option Str)) ['f']
    [(['A'], ['1'])] GoErr.ioError rfl
  exact ⟨rfl, hc.1 false, hc.2.1 true [] false⟩

/-- C9: when a strict multi-file operation aborts on a later file, the
effects of the earlier successfully processed files persist: `ReadFrom`
returns the merge of the earlier files' maps together with the error, and
`LoadFrom` / `OverloadFrom` leave the environment mutations made for the
earlier files in place — the batch is not atomic. -/
theorem C9_strict_keeps_earlier_effects :
    (∀ (fs : FSys) (outer : Str → Option Str) (pre : List Str) (f : Str)
      (post : List Str) (e : GoErr),
      okSeqR fs outer pre = true → readFile fs outer f = .error e →
      ReadFrom fs outer true (pre ++ f :: post) =
        (readSeq fs outer pre [], some e)) ∧
    (∀ (fs : FSys) (pre : List Str) (f : Str) (post : List Str) (env : Env)
      (e : GoErr),
      okSeq fs false pre env = true →
      loadFile fs f false (loadSeq fs false pre env) = .error e →
      (LoadFrom fs true (pre ++ f :: post) env).1 = loadSeq fs false pre env) ∧
    (∀ (fs : FSys) (pre : List Str) (f : Str) (post : List Str) (env : Env)
      (e : GoErr),
      okSeq fs true pre env = true →
      loadFile fs f true (loadSeq fs true pre env) = .error e →
      (OverloadFrom fs true (pre ++ f :: post) env).1 = loadSeq fs true pre env) := by
  have hfodL : ∀ (pre : List Str) (f : Str) (post : List Str),
      filenamesOrDefault (pre ++ f :: post) = pre ++ f :: post := by
    intro pre f post
    exact filenamesOrDefault_of_ne_nil _ (by simp)
  refine ⟨?_, ?_, ?_⟩
  · intro fs outer pre f post e hok hfail
    show readFromAux fs outer true (filenamesOrDefault (pre ++ f :: post))
      false [] = _
    rw [hfodL]
    exact readFromAux_strict_firstFail fs outer pre f post false [] e hok hfail
  · intro fs pre f post env e hok hfail
    show (loadFromAux fs true (filenamesOrDefault (pre ++ f :: post)) false env).1 = _
    rw [hfodL, loadFromAux_eq_fromAux]
    rw [fromAux_strict_firstFail fs false pre f post env false e hok hfail]
  · intro fs pre f post env e hok hfail
    show (overloadFromAux fs true (filenamesOrDefault (pre ++ f :: post))
      false env).1 = _
    rw [hfodL, overloadFromAux_eq_fromAux]
    rw [fromAux_strict_firstFail fs true pre f post env false e hok hfail]

/-- Witness for C9: `f1` decodes to `A=1`, `f2` fails; the strict Read of
`[f1, f2]` returns the map containing `f1`'s entry together with the error,
and the strict Load keeps `f1`'s environment mutation. -/
theorem C9_strict_keeps_earlier_effects_witness :
    ReadFrom (fun f => if f = ['f', '1'] then some ['A', '=', '1'] else none)
      (fun _ => none) true [['f', '1'], ['f', '2']] =
      (readSeq (fun f => if f = ['f', '1'] then some ['A', '=', '1'] else none)
        (fun _ => none) [['f', '1']] [], some GoErr.ioError) ∧
    (LoadFrom (fun f => if f = ['f', '1'] then some ['A', '=', '1'] else none)
      true [['f', '1'], ['f', '2']] []).1 =
      loadSeq (fun f => if f = ['f', '1'] then some ['A', '=', '1'] else none)
        false [['f', '1']] [] ∧
    readSeq (fun f => if f = ['f', '1'] then some ['A', '=', '1'] else none)
      (fun _ => none) [['f', '1']] [] = [(['A'], ['1'])] ∧
    loadSeq (fun f => if f = ['f', '1'] then some ['A', '=', '1'] else none)
      false [['f', '1']] [] = [(['A'], ['1'])] := by
  refine ⟨?_, ?_, rfl, rfl⟩
  · exact C9_strict_keeps_earlier_effects.1
      (fun f => if f = ['f', '1'] then some ['A', '=', '1'] else none)
      (fun _ => none) [['f', '1']] ['f', '2'] [] GoErr.ioError rfl rfl
  · exact C9_strict_keeps_earlier_effects.2.1
      (fun f => if f = ['f', '1'] then some ['A', '=', '1'] else none)
      [['f', '1']] ['f', '2'] [] [] GoErr.ioError rfl rfl
